import Mathlib

/-!
Verification of the pixel-level core of the bulk-crop application
(`src/App.tsx`, `src/components/CropEditor.tsx`, the controls component and the
preview components, `src/types.ts`).

The TypeScript source is shallowly embedded:
* canvas `ImageData` buffers become a total pixel function over coordinates,
  with out-of-range reads handled by explicit bounds checks (a JavaScript
  out-of-range typed-array read yields `undefined`, which makes every numeric
  comparison on it false);
* the growable flood-fill queue with a moving head index becomes a FIFO list
  processed front-to-back, run on explicit fuel that always dominates the
  loop's decreasing measure (unvisited cells + queue length);
* comparisons `Math.sqrt s < t` (`s` an integer sum of squares, `t` a
  nonnegative integer threshold) are embedded as the exactly equivalent
  integer test `s < t²`; double-precision rounding cannot flip this test
  because the squares involved are tiny w.r.t. 2⁵³ and the gap between
  `√(t²-1)` and `t` is astronomically larger than one ulp;
* the single genuinely real-valued quantity — the feathered alpha written by
  Pass 2 of background removal — is modelled in `ℝ` (the byte quantisation the
  canvas applies when the float is stored back into a `Uint8ClampedArray` is
  abstracted away, as is PNG encoding).
-/

namespace BulkCrop

/-- One RGBA pixel: the four byte values read out of a canvas `ImageData`
array.  No claim needs the 0..255 range bound, so channels are plain `Nat`. -/
structure Pixel where
  r : Nat
  g : Nat
  b : Nat
  a : Nat
deriving DecidableEq, Repr

/-- A decoded image (the `ImageFile` plus its pixel buffer): dimensions and the
pixel grid; `pix x y` is the pixel at column `x`, row `y` (only in-bounds
coordinates are meaningful). -/
structure ImageData where
  width : Nat
  height : Nat
  pix : Nat → Nat → Pixel

/-- A parsed RGB color (the result of `hexToRgb`). -/
structure Rgb where
  r : Nat
  g : Nat
  b : Nat
deriving DecidableEq, Repr

/-! ## Hex color parsing (`hexToRgb` in `App.tsx`) -/
/-- A character accepted by the character class `[a-f\d]` of the source regex,
case-insensitively. -/
def isHexDig (c : Char) : Bool :=
  c.isDigit || ('a' ≤ c && c ≤ 'f') || ('A' ≤ c && c ≤ 'F')

/-- Numeric value of one hex digit (what `parseInt(_, 16)` assigns to it). -/
def hexDigVal (c : Char) : Nat :=
  if c.isDigit then c.toNat - '0'.toNat
  else if 'a' ≤ c && c ≤ 'f' then c.toNat - 'a'.toNat + 10
  else c.toNat - 'A'.toNat + 10

/-- Value of a two-hex-digit pair. -/
def hexPair (c1 c2 : Char) : Nat := 16 * hexDigVal c1 + hexDigVal c2

/-- The optional leading `#` of the source regex (`#` is not a hex digit, so
stripping an initial `#` first is equivalent to the regex's optional group). -/
def stripHash (cs : List Char) : List Char :=
  match cs with
  | '#' :: rest => rest
  | l => l

/-- `hexToRgb` from `App.tsx`: the regex
`/^#?([a-f\d]{2})([a-f\d]{2})([a-f\d]{2})$/i` — an optional leading `#`,
then exactly six hex digits, parsed pairwise. -/
def hexToRgb (s : String) : Option Rgb :=
  match stripHash s.toList with
  | [c1, c2, c3, c4, c5, c6] =>
    if isHexDig c1 && isHexDig c2 && isHexDig c3 && isHexDig c4 &&
        isHexDig c5 && isHexDig c6 then
      some ⟨hexPair c1 c2, hexPair c3 c4, hexPair c5 c6⟩
    else none
  | _ => none

/-- Spec-side format predicate: the string "parses as `#RRGGBB`/`RRGGBB`" —
an optional leading `#` followed by exactly six hex digits. -/
def validHexFormat (s : String) : Bool :=
  let cs := stripHash s.toList
  cs.length == 6 && cs.all isHexDig

/-! ## Color distance (`colorDistance` in `App.tsx`) -/
/-- Squared Euclidean RGB distance between a pixel's color and a target
color, computed exactly over `ℤ`. -/
def distSq (p : Pixel) (c : Rgb) : ℤ :=
  ((p.r : ℤ) - c.r) ^ 2 + ((p.g : ℤ) - c.g) ^ 2 + ((p.b : ℤ) - c.b) ^ 2

/-- `colorDistance` from the source: the Euclidean RGB distance. -/
noncomputable def colorDistance (p : Pixel) (c : Rgb) : ℝ :=
  Real.sqrt ((distSq p c : ℤ) : ℝ)

/-- Executable form of the source's threshold tests `colorDistance(...) < t`
(`t` being 35, 20, or the feather width): since both sides are nonnegative,
`√s < t ↔ s < t²`, and the double-precision evaluation of the left-hand side
cannot flip the comparison (see the file header). -/
def distLtB (p : Pixel) (c : Rgb) (t : Nat) : Bool :=
  distSq p c < ((t : ℤ)) ^ 2

/-! ## The pixel grid -/
/-- Flat index of a coordinate pair, exactly the source's `i = y * width + x`. -/
def gidx (w : Nat) (p : Nat × Nat) : Nat := p.2 * w + p.1

/-- In-bounds test, the source's `x < width && y < height` (the `≥ 0` halves
are vacuous over `Nat`, see `nbrs`). -/
def inB (w h : Nat) (p : Nat × Nat) : Bool := p.1 < w && p.2 < h

/-- The candidate 4-neighbour list of a pixel, in the source's iteration
order `[0,1], [0,-1], [1,0], [-1,0]`; the entries that would have a negative
coordinate (dropped by the source's `nx >= 0 && ny >= 0` guards) are omitted.
The `< width` / `< height` halves of the guard stay at the push site. -/
def nbrs (p : Nat × Nat) : List (Nat × Nat) :=
  [(p.1, p.2 + 1)] ++ (if p.2 = 0 then [] else [(p.1, p.2 - 1)]) ++
    [(p.1 + 1, p.2)] ++ (if p.1 = 0 then [] else [(p.1 - 1, p.2)])

/-! ## The generic flood fill

Both `detectObjectsFromImage` and Pass 1 of `removeImageBackground` drain a
growable queue with a moving head index, marking a pixel visited when it is
pushed and pushing each in-bounds, unvisited neighbour that satisfies a
membership predicate (`!isBackground` resp. `colorMatch`).  We embed that
loop once, parameterised by the predicate, returning the final visited set
and the list of dequeued pixels in dequeue order. -/
/-- Processing of one neighbour candidate: the source's
`if (nx >= 0 && nx < width && ny >= 0 && ny < height) {
   if (!visited[ni] && good(ni)) { visited[ni] = 1; queue.push([nx, ny]); } }`. -/
def push1 (w h : Nat) (good : Nat × Nat → Bool)
    (st : Finset Nat × List (Nat × Nat)) (n : Nat × Nat) :
    Finset Nat × List (Nat × Nat) :=
  if inB w h n = true ∧ gidx w n ∉ st.1 ∧ good n = true then
    (insert (gidx w n) st.1, st.2 ++ [n])
  else st

/-- Push all four neighbour candidates of a just-dequeued pixel. -/
def pushNbrs (w h : Nat) (good : Nat × Nat → Bool) (c : Nat × Nat)
    (vis : Finset Nat) : Finset Nat × List (Nat × Nat) :=
  (nbrs c).foldl (push1 w h good) (vis, [])

/-- The queue-draining loop (`while (head < queue.length) ...`), on fuel.
Every call site passes fuel dominating the decreasing measure
(unvisited in-bounds cells + queue length), so the fuel never runs out. -/
def floodLoop (w h : Nat) (good : Nat × Nat → Bool) :
    Nat → List (Nat × Nat) → Finset Nat → Finset Nat × List (Nat × Nat)
  | 0, _, vis => (vis, [])
  | _ + 1, [], vis => (vis, [])
  | fuel + 1, c :: rest, vis =>
    let s := pushNbrs w h good c vis
    let r := floodLoop w h good fuel (rest ++ s.2) s.1
    (r.1, c :: r.2)

/-- Reachability through pixels satisfying `good` by in-bounds 4-neighbour
steps that never land on an index in `avoid`; the starting pixel itself is
unconstrained. This is the spec-side notion of (partial) connectivity. -/
inductive Reach (w h : Nat) (good : Nat × Nat → Bool) (avoid : Finset Nat) :
    Nat × Nat → Nat × Nat → Prop
  | refl (p : Nat × Nat) : Reach w h good avoid p p
  | step {p q r : Nat × Nat} : Reach w h good avoid p q → r ∈ nbrs q →
      inB w h r = true → good r = true → gidx w r ∉ avoid → Reach w h good avoid p r

/-! ## Object auto-detection (`detectObjectsFromImage` in `App.tsx`) -/
inductive DetectMode
  | transparent
  | color
deriving DecidableEq, Repr

/-- The `options` argument `{ mode: 'transparent' | 'color', color: string }`. -/
structure DetectOptions where
  mode : DetectMode
  color : String

/-- `const bgColorRgb = options.mode === 'color' ? hexToRgb(options.color) : null`. -/
def bgColorRgb (o : DetectOptions) : Option Rgb :=
  match o.mode with
  | .color => hexToRgb o.color
  | .transparent => none

/-- `isBackground` of `detectObjectsFromImage`, per coordinate (the source
takes the flat byte index `i * 4`; detection only ever calls it in-bounds).
`COLOR_THRESHOLD = 35`, `ALPHA_THRESHOLD = 10`. -/
def isBackground (img : ImageData) (o : DetectOptions) (p : Nat × Nat) : Bool :=
  match o.mode with
  | .transparent => (img.pix p.1 p.2).a < 10
  | .color =>
    match bgColorRgb o with
    | some c => distLtB (img.pix p.1 p.2) c 35
    | none => false

/-- Foreground predicate: the flood fill grows through `!isBackground`. -/
def fgP (img : ImageData) (o : DetectOptions) (p : Nat × Nat) : Bool :=
  !isBackground img o p

/-- Running bounding-box accumulator `minX, minY, maxX, maxY`. -/
structure BBoxAcc where
  minX : Nat
  minY : Nat
  maxX : Nat
  maxY : Nat
deriving DecidableEq, Repr

/-- The per-dequeue update
`minX = Math.min(minX, cx); ... maxY = Math.max(maxY, cy)`. -/
def extendBox (b : BBoxAcc) (p : Nat × Nat) : BBoxAcc :=
  ⟨min b.minX p.1, min b.minY p.2, max b.maxX p.1, max b.maxY p.2⟩

/-- An output bounding box, shaped like a `CropRect` without the id. -/
structure Box where
  x : Nat
  y : Nat
  width : Nat
  height : Nat
deriving DecidableEq, Repr

/-- State of the row-major scan: the visited bitmap, the boxes pushed so far,
and the concatenated dequeue traces of all flood fills run so far (the latter
records each "pixel visit" of the algorithm, used for the visit accounting). -/
structure ScanState where
  vis : Finset Nat
  boxes : List Box
  trace : List (Nat × Nat)

/-- The flood fill the scan runs when it hits an unvisited foreground pixel
`p`: seeded with the queue `[[x, y]]` and `visited[i] = 1`.  The fuel
`width*height + 1` dominates the loop's decreasing measure, so the queue
always drains. -/
def detFill (img : ImageData) (o : DetectOptions) (st : ScanState)
    (p : Nat × Nat) : Finset Nat × List (Nat × Nat) :=
  floodLoop img.width img.height (fgP img o) (img.width * img.height + 1) [p]
    (insert (gidx img.width p) st.vis)

/-- The bounding box tracked over that fill: starts at the seed's coordinates
and is extended by every dequeued pixel. -/
def detBox (img : ImageData) (o : DetectOptions) (st : ScanState)
    (p : Nat × Nat) : BBoxAcc :=
  (detFill img o st p).2.foldl extendBox ⟨p.1, p.2, p.1, p.2⟩

/-- One iteration of the source's scan body for pixel `p`:
skip if visited; a background pixel is only marked visited; otherwise run the
breadth-first fill seeded at `p`, track the bounding box over the dequeued
pixels, and keep it only if both extents exceed 5
(`maxX - minX > 5 && maxY - minY > 5`). -/
def scanStep (img : ImageData) (o : DetectOptions) (st : ScanState)
    (p : Nat × Nat) : ScanState :=
  if gidx img.width p ∈ st.vis then st
  else if isBackground img o p then { st with vis := insert (gidx img.width p) st.vis }
  else
    { vis := (detFill img o st p).1
      boxes := st.boxes ++
        (if 5 < (detBox img o st p).maxX - (detBox img o st p).minX ∧
            5 < (detBox img o st p).maxY - (detBox img o st p).minY then
          [⟨(detBox img o st p).minX, (detBox img o st p).minY,
            (detBox img o st p).maxX - (detBox img o st p).minX + 1,
            (detBox img o st p).maxY - (detBox img o st p).minY + 1⟩]
        else [])
      trace := st.trace ++ (detFill img o st p).2 }

/-- The row-major coordinate enumeration
(`for (y...) for (x...)` — y outer, x inner). -/
def rowMajor (w h : Nat) : List (Nat × Nat) :=
  (List.range h).flatMap fun y => (List.range w).map fun x => (x, y)

def detectScan (img : ImageData) (o : DetectOptions) : ScanState :=
  (rowMajor img.width img.height).foldl (scanStep img o) ⟨∅, [], []⟩

/-- `detectObjectsFromImage` — the detected bounding boxes in scan order. -/
def detectObjectsFromImage (img : ImageData) (o : DetectOptions) : List Box :=
  (detectScan img o).boxes

/-! ### Spec side: 4-connected foreground components -/
/-- Spec-side 4-connectivity between foreground pixels: reachability through
in-bounds foreground pixels with nothing avoided. -/
def ConnF (img : ImageData) (o : DetectOptions) (p q : Nat × Nat) : Prop :=
  Reach img.width img.height (fgP img o) ∅ p q

/-- The 4-connected component of `p` within the in-bounds foreground. -/
def CompSet (img : ImageData) (o : DetectOptions) (p : Nat × Nat) : Set (Nat × Nat) :=
  { q | inB img.width img.height q = true ∧ ConnF img o p q }

open Classical in
/-- Spec-side candidate emitted while scanning position `p` row-major: a box
is produced exactly at the first-encountered pixel of each foreground
component whose extents both exceed 5, and it is the componentwise min/max
bounding box of that component. -/
noncomputable def specEntry (img : ImageData) (o : DetectOptions)
    (p : Nat × Nat) : Option Box :=
  if inB img.width img.height p = true ∧ fgP img o p = true ∧
      (∀ q ∈ CompSet img o p, gidx img.width p ≤ gidx img.width q) then
    if 5 < sSup (Prod.fst '' CompSet img o p) - sInf (Prod.fst '' CompSet img o p) ∧
        5 < sSup (Prod.snd '' CompSet img o p) - sInf (Prod.snd '' CompSet img o p) then
      some ⟨sInf (Prod.fst '' CompSet img o p), sInf (Prod.snd '' CompSet img o p),
        sSup (Prod.fst '' CompSet img o p) - sInf (Prod.fst '' CompSet img o p) + 1,
        sSup (Prod.snd '' CompSet img o p) - sInf (Prod.snd '' CompSet img o p) + 1⟩
    else none
  else none

/-- The spec's description of the output: one bounding box per 4-connected
foreground component, emitted in the row-major scan order of the components'
first pixels, filtered by the `> 5` extent threshold. -/
noncomputable def specBoxes (img : ImageData) (o : DetectOptions) : List Box :=
  (rowMajor img.width img.height).filterMap (specEntry img o)

/-! ### The row-major scan invariant -/
/-- "Pixel `p` has been marked visited by the time the scan reaches position
`k`": a background pixel once its own position is past, a foreground pixel
once any position of its component is past (the fill seeded at the
component's first pixel visits the whole component). -/
def seen (img : ImageData) (o : DetectOptions) (k : Nat) (p : Nat × Nat) : Prop :=
  (isBackground img o p = true ∧ gidx img.width p < k) ∨
  (fgP img o p = true ∧ ∃ q ∈ CompSet img o p, gidx img.width q < k)

/-- Invariant of the scan state after processing the first `k` row-major
positions. -/
def ScanInv (img : ImageData) (o : DetectOptions) (k : Nat) (st : ScanState) : Prop :=
  (∀ p, inB img.width img.height p = true →
    (gidx img.width p ∈ st.vis ↔ seen img o k p)) ∧
  (st.boxes = ((List.range k).map
      (fun i => (i % img.width, i / img.width))).filterMap (specEntry img o)) ∧
  (∀ t ∈ st.trace, inB img.width img.height t = true ∧ fgP img o t = true) ∧
  ((st.trace.map (gidx img.width)).Nodup) ∧
  (∀ t ∈ st.trace, gidx img.width t ∈ st.vis) ∧
  (∀ p, inB img.width img.height p = true → fgP img o p = true →
    gidx img.width p ∈ st.vis → p ∈ st.trace)

/-- The scan state after the first `k` row-major positions. -/
def scanPrefix (img : ImageData) (o : DetectOptions) (k : Nat) : ScanState :=
  ((List.range k).map (fun i => (i % img.width, i / img.width))).foldl
    (scanStep img o) ⟨∅, [], []⟩

/-! ## Background removal (`removeImageBackground` in `App.tsx`) -/
/-- `colorMatch` applied to the pixel at `p` (`COLOR_THRESHOLD = 20`).  The
source indexes the flat data array; an out-of-range read (as happens while
seeding a zero-height image with `y = height - 1 = -1`) yields `undefined`,
whose distance comparison is false — hence the bounds guard. -/
def colorMatchAt (img : ImageData) (c : Rgb) (p : Nat × Nat) : Bool :=
  if inB img.width img.height p = true then distLtB (img.pix p.1 p.2) c 20
  else false

/-- `addToQueue`: skip if visited, else if the pixel color-matches, mark it
visited and enqueue it. -/
def addToQueue (img : ImageData) (c : Rgb) (p : Nat × Nat)
    (st : Finset Nat × List (Nat × Nat)) : Finset Nat × List (Nat × Nat) :=
  if gidx img.width p ∈ st.1 then st
  else if colorMatchAt img c p then (insert (gidx img.width p) st.1, st.2 ++ [p])
  else st

/-- The border seeding candidates, in the source's order:
`for x { addToQueue(x, 0); addToQueue(x, height-1) }` then
`for y = 1 .. height-2 { addToQueue(0, y); addToQueue(width-1, y) }`
(the two calls per iteration are flattened into one candidate list; folding
`addToQueue` over it processes the same pixels in the same order). -/
def borderCands (img : ImageData) : List (Nat × Nat) :=
  ((List.range img.width).flatMap fun x => [(x, 0), (x, img.height - 1)]) ++
    (((List.range (img.height - 1)).drop 1).flatMap fun y =>
      [(0, y), (img.width - 1, y)])

def borderSeeds (img : ImageData) (c : Rgb) : Finset Nat × List (Nat × Nat) :=
  (borderCands img).foldl (fun st q => addToQueue img c q st) (∅, [])

/-- Pass 1's drained flood fill (fuel dominates the decreasing measure). -/
def pass1Run (img : ImageData) (c : Rgb) : Finset Nat × List (Nat × Nat) :=
  floodLoop img.width img.height (colorMatchAt img c)
    (img.width * img.height + (borderSeeds img c).2.length)
    (borderSeeds img c).2 (borderSeeds img c).1

/-- The image after Pass 1: every dequeued pixel's alpha is set to 0
(`data[i + 3] = 0`), everything else untouched. -/
def pass1Img (img : ImageData) (c : Rgb) : ImageData :=
  { img with pix := fun x y =>
      if (x, y) ∈ (pass1Run img c).2 then { img.pix x y with a := 0 }
      else img.pix x y }

/-- A pixel with real-valued alpha: Pass 2 writes `originalAlpha * (d / F)`,
a genuine floating-point value (its byte quantisation on storage is
abstracted away). -/
structure RPixel where
  r : Nat
  g : Nat
  b : Nat
  a : ℝ

def Pixel.toR (p : Pixel) : RPixel := ⟨p.r, p.g, p.b, (p.a : ℝ)⟩

/-- An image with real-valued alphas (the result type of background
removal). -/
structure FImage where
  width : Nat
  height : Nat
  pix : Nat → Nat → RPixel

def ImageData.toF (img : ImageData) : FImage :=
  ⟨img.width, img.height, fun x y => (img.pix x y).toR⟩

/-- The Pass-2 edge test: some 4-neighbour is in-bounds and fully
transparent (`=== 0`) in the post-Pass-1 snapshot. -/
def hasTransparentNbr (img1 : ImageData) (p : Nat × Nat) : Bool :=
  (nbrs p).any fun n =>
    inB img1.width img1.height n && ((img1.pix n.1 n.2).a == 0)

/-- `removeImageBackground`: parse the target color (unparsable → return the
input unchanged), run the Pass-1 boundary flood fill, then, when
`feather > 0`, recompute the alpha of every opaque edge pixel whose original
color lies within distance `feather` of the target as
`originalAlpha * (distance / feather)`. -/
noncomputable def removeImageBackground (img : ImageData) (hexColor : String)
    (feather : Nat) : FImage :=
  match hexToRgb hexColor with
  | none => img.toF
  | some c =>
    if feather = 0 then (pass1Img img c).toF
    else
      { width := img.width
        height := img.height
        pix := fun x y =>
          if 0 < ((pass1Img img c).pix x y).a ∧
              hasTransparentNbr (pass1Img img c) (x, y) = true ∧
              distSq (img.pix x y) c < (feather : ℤ) ^ 2 then
            { r := ((pass1Img img c).pix x y).r
              g := ((pass1Img img c).pix x y).g
              b := ((pass1Img img c).pix x y).b
              a := ((img.pix x y).a : ℝ) *
                (colorDistance (img.pix x y) c / (feather : ℝ)) }
          else ((pass1Img img c).pix x y).toR }

/-- A pixel on any of the four image borders. -/
def onBorder (img : ImageData) (p : Nat × Nat) : Prop :=
  p.1 = 0 ∨ p.1 = img.width - 1 ∨ p.2 = 0 ∨ p.2 = img.height - 1

/-- Spec-side description of Pass 1's removal region: reachable through
color-matching pixels from a color-matching border pixel. -/
def BorderConn (img : ImageData) (c : Rgb) (p : Nat × Nat) : Prop :=
  ∃ b, inB img.width img.height b = true ∧ onBorder img b ∧
    colorMatchAt img c b = true ∧
    Reach img.width img.height (colorMatchAt img c) ∅ b p

/-- The 2x1 image used to witness the feathering formula: a matching black
border pixel and a pixel at exact color distance 21 from black. -/
def imgC3 : ImageData :=
  ⟨2, 1, fun x _ => if x = 0 then ⟨0, 0, 0, 255⟩ else ⟨21, 0, 0, 255⟩⟩

/-! ## The export pipeline (`handleDownload` in `App.tsx`)

The per-pair canvas work (image decode, `drawImage`, `toBlob`, ZIP byte
assembly) is environmental; what the claims concern is the control flow:
pair order, progress accounting, and which files end up in which archive.
The environment is abstracted by two oracles: whether `getContext('2d')`
returns a context for the (crop, image) pair, and whether `toBlob` yields a
blob.  Image loading is assumed to succeed (the claim quantifies over
loadable images; a rejected load aborts the surrounding `try`). -/
/-- A crop rectangle with JS-number (here: rational) fields, as held in
React state (`CropRect` in `types.ts`, sans the string id). -/
structure CropRectQ where
  x : ℚ
  y : ℚ
  width : ℚ
  height : ℚ
deriving DecidableEq, Repr

/-- The slice of an `ImageFile` record the export loop's outputs depend on. -/
structure ImageFile where
  name : String
deriving DecidableEq, Repr

/-- `name.substring(0, name.lastIndexOf('.'))`: the characters strictly
before the last dot; when there is no dot, `lastIndexOf` is −1 and
`substring(0, -1)` clamps to the empty string. -/
def baseName (s : String) : String :=
  let cs := s.toList
  if '.' ∈ cs then
    String.mk (cs.take (cs.length - 1 - cs.reverse.indexOf '.'))
  else ""

/-- The archive entry name `<base>.png`. -/
def pngName (f : ImageFile) : String := baseName f.name ++ ".png"

/-- Environmental oracles, indexed by (crop index, image index). -/
structure ExportEnv where
  ctxOk : Nat → Nat → Bool
  blobOk : Nat → Nat → Bool

/-- Result of the inner (per-crop) loop: the files added to this crop's
archive, the progress notifications issued, the pairs processed (in order),
and the updated `processedCount`. -/
structure PairOut where
  files : List String
  events : List (Nat × Nat)
  pairs : List (Nat × Nat)
  count : Nat

/-- The inner loop over images for crop index `i`, starting at image index
`j` with `processedCount = count`: an unobtainable drawing context still
counts toward progress and is skipped (`continue`); otherwise the pair is
drawn, and the file is added when a blob is produced; either way the pair is
counted and the progress sink notified with the incremented count. -/
def innerLoop (env : ExportEnv) (total i : Nat) :
    List ImageFile → Nat → Nat → PairOut
  | [], _, count => ⟨[], [], [], count⟩
  | f :: rest, j, count =>
    if env.ctxOk i j then
      let r := innerLoop env total i rest (j + 1) (count + 1)
      ⟨(if env.blobOk i j then [pngName f] else []) ++ r.files,
        (count + 1, total) :: r.events, (i, j) :: r.pairs, r.count⟩
    else
      let r := innerLoop env total i rest (j + 1) (count + 1)
      ⟨r.files, (count + 1, total) :: r.events, (i, j) :: r.pairs, r.count⟩

/-- Result of the whole download: one archive (list of file names) per crop,
plus the concatenated progress events and processed pairs. -/
structure DownloadOut where
  archives : List (List String)
  events : List (Nat × Nat)
  pairs : List (Nat × Nat)
  count : Nat

def outerLoop (env : ExportEnv) (total : Nat) (images : List ImageFile) :
    List CropRectQ → Nat → Nat → DownloadOut
  | [], _, count => ⟨[], [], [], count⟩
  | _ :: rest, i, count =>
    let r1 := innerLoop env total i images 0 count
    let r2 := outerLoop env total images rest (i + 1) r1.count
    ⟨r1.files :: r2.archives, r1.events ++ r2.events, r1.pairs ++ r2.pairs, r2.count⟩

/-- `handleDownload`: early-return on an empty image or crop list, otherwise
`totalOperations = images.length * crops.length` and the crop-major nested
loops. -/
def handleDownload (crops : List CropRectQ) (images : List ImageFile)
    (env : ExportEnv) : DownloadOut :=
  if images.length = 0 ∨ crops.length = 0 then ⟨[], [], [], 0⟩
  else outerLoop env (images.length * crops.length) images crops 0 0

/-! ## Cover-fit projection (`Thumbnail` in `types.ts` and
`SingleCropPreview`) -/
/-- The uniform scale: compare the crop's aspect ratio with the container's
(defaulting the latter to 1 when the container reports a non-positive size),
then scale to the container's height if the crop is wider, else to its
width. -/
def coverScale (crop : CropRectQ) (vw vh : ℚ) : ℚ :=
  if (if 0 < vw ∧ 0 < vh then vw / vh else 1) < crop.width / crop.height then
    vh / crop.height
  else vw / crop.width

/-- The cover-fit projection: `none` models the placeholder branch the
components render for a degenerate crop or image; otherwise the scale and
the translation that centres the crop in the viewport. -/
def projectCropToViewport (crop : CropRectQ) (imgW imgH vw vh : ℚ) :
    Option (ℚ × ℚ × ℚ) :=
  if crop.width ≤ 0 ∨ crop.height ≤ 0 ∨ imgW ≤ 0 ∨ imgH ≤ 0 then none
  else
    some (coverScale crop vw vh,
      -(crop.x * coverScale crop vw vh) +
        (vw - crop.width * coverScale crop vw vh) / 2,
      -(crop.y * coverScale crop vw vh) +
        (vh - crop.height * coverScale crop vw vh) / 2)

/-! ## Crop editing (`handleInputChange` in the Controls component,
`handleInteractionMove` in `CropEditor.tsx`, the initial crop of
`handleFileChange` in `App.tsx`) -/
/-- The four editable fields of a crop (`keyof Omit<CropRect, 'id'>`). -/
inductive CropField
  | x
  | y
  | width
  | height
deriving DecidableEq, Repr

/-- `handleInputChange` of the Controls component: set the field, then apply
the single matching upper-bound fixup.  The source has no lower clamp and no
NaN other than the early return (the UI feeds `parseInt` values, so `v`
ranges over the reals the parse can produce; integers suffice for the
counterexample).  Exactly one of the four `if (field === ...)` fixups can
fire, so the sequence is a match on the field. -/
def handleInputChange (c : CropRectQ) (imageWidth imageHeight : ℚ)
    (f : CropField) (v : ℚ) : CropRectQ :=
  match f with
  | .x =>
    if imageWidth < v + c.width then
      ⟨imageWidth - c.width, c.y, c.width, c.height⟩
    else ⟨v, c.y, c.width, c.height⟩
  | .y =>
    if imageHeight < v + c.height then
      ⟨c.x, imageHeight - c.height, c.width, c.height⟩
    else ⟨c.x, v, c.width, c.height⟩
  | .width =>
    if imageWidth < c.x + v then
      ⟨c.x, c.y, imageWidth - c.x, c.height⟩
    else ⟨c.x, c.y, v, c.height⟩
  | .height =>
    if imageHeight < c.y + v then
      ⟨c.x, c.y, c.width, imageHeight - c.y⟩
    else ⟨c.x, c.y, c.width, v⟩

/-- The drag handles of `CropEditor.tsx` (`Handle` in `types.ts`). -/
inductive Handle
  | n
  | s
  | e
  | w
  | ne
  | nw
  | se
  | sw
  | move
deriving DecidableEq, Repr

/-- `activeHandle.includes('e')`.  The string `"move"` contains an `'e'`, so
the move handle also takes the east-resize branch — this is the source's
behaviour, not a transcription slip. -/
def incE : Handle → Bool
  | .e | .ne | .se | .move => true
  | _ => false

/-- `activeHandle.includes('w')`. -/
def incW : Handle → Bool
  | .w | .nw | .sw => true
  | _ => false

/-- `activeHandle.includes('s')`. -/
def incS : Handle → Bool
  | .s | .se | .sw => true
  | _ => false

/-- `activeHandle.includes('n')`. -/
def incN : Handle → Bool
  | .n | .ne | .nw => true
  | _ => false

/-- `activeHandle === 'move'`. -/
def isMove : Handle → Bool
  | .move => true
  | _ => false

/-- One axis of `handleInteractionMove` up to (but not including) the final
clamp: apply the delta to the size (east/south grows, west/north shifts and
shrinks), apply the move translation, then the `minSize = 20` fixup, which
re-anchors the position only for the west/north handle.  Returns
(position, size). -/
def axisAdjust (x w d : ℚ) (iE iW mv : Bool) : ℚ × ℚ :=
  let w1 := if iE then w + d else w
  let w2 := if iW then w1 - d else w1
  let x1 := if iW then x + d else x
  let x2 := if mv then x1 + d else x1
  ((if w2 < 20 then (if iW then x + w - 20 else x2) else x2),
   (if w2 < 20 then 20 else w2))

/-- `handleInteractionMove` of `CropEditor.tsx`, after the deltas have been
scaled into image space: per-axis adjustment, then the final clamp — the
move branch clamps the position into `[0, image − size]`, the resize branch
clamps the position to `≥ 0` and then the size to `image − position`. -/
def handleInteractionMove (c : CropRectQ) (h : Handle)
    (imageWidth imageHeight dX dY : ℚ) : CropRectQ :=
  let px := axisAdjust c.x c.width dX (incE h) (incW h) (isMove h)
  let py := axisAdjust c.y c.height dY (incS h) (incN h) (isMove h)
  if isMove h then
    ⟨max 0 (min px.1 (imageWidth - px.2)),
     max 0 (min py.1 (imageHeight - py.2)), px.2, py.2⟩
  else
    ⟨max 0 px.1, max 0 py.1,
     min px.2 (imageWidth - max 0 px.1),
     min py.2 (imageHeight - max 0 py.1)⟩

/-- The initial crop created by `handleFileChange`:
`size = min(width, height) * 0.5`, centred. -/
def initialCrop (imageWidth imageHeight : ℚ) : CropRectQ :=
  ⟨(imageWidth - min imageWidth imageHeight * (1 / 2)) / 2,
   (imageHeight - min imageWidth imageHeight * (1 / 2)) / 2,
   min imageWidth imageHeight * (1 / 2),
   min imageWidth imageHeight * (1 / 2)⟩

/-- A rational is integer-valued. -/
def IntValued (q : ℚ) : Prop := ∃ n : ℤ, q = (n : ℚ)

/-- The invariant C7 claims of every crop after any edit, stated from the
spec's words (for the refutation): in-bounds, positive, integral. -/
def cropInvariant (c : CropRectQ) (imageWidth imageHeight : ℚ) : Prop :=
  0 ≤ c.x ∧ 0 ≤ c.y ∧ c.x + c.width ≤ imageWidth ∧
  c.y + c.height ≤ imageHeight ∧ 0 < c.width ∧ 0 < c.height ∧
  IntValued c.x ∧ IntValued c.y ∧ IntValued c.width ∧ IntValued c.height

/-- The parser succeeds exactly on strings of the spec's `#RRGGBB`/`RRGGBB`
format. -/
theorem hexToRgb_isSome_iff (s : String) :
    (hexToRgb s).isSome = validHexFormat s := by
  unfold hexToRgb validHexFormat
  rcases stripHash s.toList with
    _ | ⟨c1, _ | ⟨c2, _ | ⟨c3, _ | ⟨c4, _ | ⟨c5, _ | ⟨c6, _ | ⟨c7, l⟩⟩⟩⟩⟩⟩⟩ <;>
    simp [List.all] <;>
    by_cases h1 : isHexDig c1 <;> by_cases h2 : isHexDig c2 <;>
    by_cases h3 : isHexDig c3 <;> by_cases h4 : isHexDig c4 <;>
    by_cases h5 : isHexDig c5 <;> by_cases h6 : isHexDig c6 <;>
    simp [h1, h2, h3, h4, h5, h6]

/-- A string not of the `#RRGGBB`/`RRGGBB` format fails to parse. -/
theorem hexToRgb_eq_none (s : String) (h : validHexFormat s = false) :
    hexToRgb s = none := by
  have := hexToRgb_isSome_iff s
  rw [h] at this
  exact Option.not_isSome_iff_eq_none.mp (by simp [this])

theorem distSq_nonneg (p : Pixel) (c : Rgb) : 0 ≤ distSq p c := by
  unfold distSq; positivity

/-- The integer test agrees with the real Euclidean-distance test of the
source. -/
theorem distLtB_iff (p : Pixel) (c : Rgb) (t : Nat) :
    distLtB p c t = true ↔ colorDistance p c < (t : ℝ) := by
  unfold distLtB colorDistance
  rcases Nat.eq_zero_or_pos t with ht | ht
  · subst ht
    constructor
    · intro h
      have h' : distSq p c < 0 := by simpa using h
      exact absurd h' (not_lt.mpr (distSq_nonneg p c))
    · intro h
      have h0 : (0 : ℝ) ≤ Real.sqrt (((distSq p c : ℤ) : ℝ)) :=
        Real.sqrt_nonneg _
      have : ((0 : ℕ) : ℝ) ≤ Real.sqrt (((distSq p c : ℤ) : ℝ)) := by
        simpa using h0
      exact absurd h (not_lt.mpr this)
  · have hpos : (0 : ℝ) < (t : ℝ) := by exact_mod_cast ht
    rw [Real.sqrt_lt' hpos]
    constructor
    · intro h
      have h' : distSq p c < ((t : ℤ)) ^ 2 := by simpa using h
      exact_mod_cast h'
    · intro h
      simp only [decide_eq_true_eq]
      exact_mod_cast h

theorem inB_iff {w h : Nat} {p : Nat × Nat} :
    inB w h p = true ↔ p.1 < w ∧ p.2 < h := by
  simp [inB]

theorem gidx_lt {w h : Nat} {p : Nat × Nat} (hp : inB w h p = true) :
    gidx w p < w * h := by
  rw [inB_iff] at hp
  obtain ⟨hx, hy⟩ := hp
  have h1 : p.2 * w + p.1 < p.2 * w + w := by omega
  have h2 : p.2 * w + w = (p.2 + 1) * w := by ring
  have h3 : (p.2 + 1) * w ≤ h * w := Nat.mul_le_mul_right w hy
  calc gidx w p < (p.2 + 1) * w := by rw [gidx] at *; omega
    _ ≤ h * w := h3
    _ = w * h := Nat.mul_comm h w

theorem gidx_injOn {w h : Nat} {p q : Nat × Nat} (hp : inB w h p = true)
    (hq : inB w h q = true) (hpq : gidx w p = gidx w q) : p = q := by
  rw [inB_iff] at hp hq
  unfold gidx at hpq
  have hw : 0 < w := lt_of_le_of_lt (Nat.zero_le _) hp.1
  have hx : p.1 = q.1 := by
    have h1 : (p.2 * w + p.1) % w = p.1 := by
      rw [Nat.mul_comm p.2 w, Nat.mul_add_mod]
      exact Nat.mod_eq_of_lt hp.1
    have h2 : (q.2 * w + q.1) % w = q.1 := by
      rw [Nat.mul_comm q.2 w, Nat.mul_add_mod]
      exact Nat.mod_eq_of_lt hq.1
    rw [hpq, h2] at h1
    exact h1.symm
  have hy : p.2 = q.2 := by
    have : p.2 * w = q.2 * w := by omega
    exact Nat.eq_of_mul_eq_mul_right hw this
  exact Prod.ext hx hy

theorem mem_nbrs {p q : Nat × Nat} :
    q ∈ nbrs p ↔ (q = (p.1, p.2 + 1)) ∨ (p.2 ≠ 0 ∧ q = (p.1, p.2 - 1)) ∨
      (q = (p.1 + 1, p.2)) ∨ (p.1 ≠ 0 ∧ q = (p.1 - 1, p.2)) := by
  unfold nbrs
  by_cases h2 : p.2 = 0 <;> by_cases h1 : p.1 = 0 <;> simp [h1, h2] <;> tauto

/-- 4-adjacency is symmetric (on the candidate lists; bounds play no role). -/
theorem nbrs_symm {p q : Nat × Nat} (h : q ∈ nbrs p) : p ∈ nbrs q := by
  rw [mem_nbrs] at h ⊢
  rcases h with h | ⟨hz, h⟩ | h | ⟨hz, h⟩
  · subst h
    exact Or.inr (Or.inl ⟨by simp, Prod.ext rfl (by simp)⟩)
  · subst h
    exact Or.inl (Prod.ext rfl (by simp; omega))
  · subst h
    exact Or.inr (Or.inr (Or.inr ⟨by simp, Prod.ext (by simp) rfl⟩))
  · subst h
    exact Or.inr (Or.inr (Or.inl (Prod.ext (by simp; omega) rfl)))

theorem cardStep {N a : Nat} {vis : Finset Nat} (ha : a < N) (hv : a ∉ vis) :
    (Finset.range N \ insert a vis).card + 1 = (Finset.range N \ vis).card := by
  have h1 : Finset.range N \ insert a vis = (Finset.range N \ vis).erase a := by
    ext b
    simp only [Finset.mem_sdiff, Finset.mem_erase, Finset.mem_insert, Finset.mem_range]
    tauto
  rw [h1]
  exact Finset.card_erase_add_one (by simp [Finset.mem_sdiff, ha, hv])

/-- Master lemma for the neighbour-pushing fold: the pushes extend the
accumulator by a list `new` of pixels that are candidates of `l`, in-bounds,
`good`, and unvisited; the visited set grows by exactly their indices; every
in-bounds `good` candidate ends up visited. -/
theorem foldPush_spec (w h : Nat) (good : Nat × Nat → Bool) (l : List (Nat × Nat)) :
    ∀ (vis : Finset Nat) (acc : List (Nat × Nat)),
      ∃ new : List (Nat × Nat),
        (l.foldl (push1 w h good) (vis, acc)).2 = acc ++ new ∧
        vis ⊆ (l.foldl (push1 w h good) (vis, acc)).1 ∧
        (∀ x ∈ new, x ∈ l ∧ inB w h x = true ∧ good x = true ∧ gidx w x ∉ vis) ∧
        (∀ a, a ∈ (l.foldl (push1 w h good) (vis, acc)).1 ↔
          a ∈ vis ∨ ∃ x ∈ new, gidx w x = a) ∧
        (new.map (gidx w)).Nodup ∧
        ((Finset.range (w * h) \ (l.foldl (push1 w h good) (vis, acc)).1).card + new.length
          = (Finset.range (w * h) \ vis).card) ∧
        (∀ x ∈ l, inB w h x = true → good x = true →
          gidx w x ∈ (l.foldl (push1 w h good) (vis, acc)).1) := by
  induction l with
  | nil =>
    intro vis acc
    exact ⟨[], by simp, by simp, by simp, by simp, by simp, by simp, by simp⟩
  | cons n l ih =>
    intro vis acc
    by_cases hc : inB w h n = true ∧ gidx w n ∉ vis ∧ good n = true
    · have hstep : push1 w h good (vis, acc) n = (insert (gidx w n) vis, acc ++ [n]) := by
        simp only [push1]
        rw [if_pos hc]
      obtain ⟨new', h2, hmono, hmem, hchar, hnd, hcard, hcompl⟩ :=
        ih (insert (gidx w n) vis) (acc ++ [n])
      rw [List.foldl_cons, hstep]
      refine ⟨n :: new', ?_, ?_, ?_, ?_, ?_, ?_, ?_⟩
      · simpa using h2
      · exact fun a ha => hmono (Finset.mem_insert_of_mem ha)
      · intro x hx
        rcases List.mem_cons.mp hx with rfl | hx'
        · exact ⟨List.mem_cons_self _ _, hc.1, hc.2.2, hc.2.1⟩
        · obtain ⟨hl, hb, hg, hnv⟩ := hmem x hx'
          exact ⟨List.mem_cons_of_mem _ hl, hb, hg,
            fun hmem' => hnv (Finset.mem_insert_of_mem hmem')⟩
      · intro a
        rw [hchar a, Finset.mem_insert]
        constructor
        · rintro ((rfl | hv) | ⟨x, hx, hxa⟩)
          · exact Or.inr ⟨n, List.mem_cons_self _ _, rfl⟩
          · exact Or.inl hv
          · exact Or.inr ⟨x, List.mem_cons_of_mem _ hx, hxa⟩
        · rintro (hv | ⟨x, hx, hxa⟩)
          · exact Or.inl (Or.inr hv)
          · rcases List.mem_cons.mp hx with rfl | hx'
            · exact Or.inl (Or.inl hxa.symm)
            · exact Or.inr ⟨x, hx', hxa⟩
      · simp only [List.map_cons, List.nodup_cons]
        refine ⟨?_, hnd⟩
        intro hmem'
        obtain ⟨x, hx, hxa⟩ := List.mem_map.mp hmem'
        obtain ⟨_, _, _, hnv⟩ := hmem x hx
        exact hnv (by rw [hxa]; exact Finset.mem_insert_self _ _)
      · have hstep2 := cardStep (N := w * h) (gidx_lt hc.1) hc.2.1
        simp only [List.length_cons]
        omega
      · intro x hx hb hg
        rcases List.mem_cons.mp hx with rfl | hx'
        · exact hmono (Finset.mem_insert_self _ _)
        · exact hcompl x hx' hb hg
    · have hstep : push1 w h good (vis, acc) n = (vis, acc) := by
        simp only [push1]
        rw [if_neg hc]
      obtain ⟨new', h2, hmono, hmem, hchar, hnd, hcard, hcompl⟩ := ih vis acc
      rw [List.foldl_cons, hstep]
      refine ⟨new', h2, hmono, ?_, hchar, hnd, hcard, ?_⟩
      · intro x hx
        obtain ⟨hl, hb, hg, hnv⟩ := hmem x hx
        exact ⟨List.mem_cons_of_mem _ hl, hb, hg, hnv⟩
      · intro x hx hb hg
        rcases List.mem_cons.mp hx with rfl | hx'
        · -- not pushed, so `x` must already be visited
          have hv : gidx w x ∈ vis := by
            by_contra hnv
            exact hc ⟨hb, hnv, hg⟩
          exact hmono hv
        · exact hcompl x hx' hb hg

theorem pushNbrs_spec (w h : Nat) (good : Nat × Nat → Bool) (c : Nat × Nat)
    (vis : Finset Nat) :
    vis ⊆ (pushNbrs w h good c vis).1 ∧
    (∀ x ∈ (pushNbrs w h good c vis).2,
      x ∈ nbrs c ∧ inB w h x = true ∧ good x = true ∧ gidx w x ∉ vis) ∧
    (∀ a, a ∈ (pushNbrs w h good c vis).1 ↔
      a ∈ vis ∨ ∃ x ∈ (pushNbrs w h good c vis).2, gidx w x = a) ∧
    ((pushNbrs w h good c vis).2.map (gidx w)).Nodup ∧
    ((Finset.range (w * h) \ (pushNbrs w h good c vis).1).card +
      (pushNbrs w h good c vis).2.length = (Finset.range (w * h) \ vis).card) ∧
    (∀ x ∈ nbrs c, inB w h x = true → good x = true →
      gidx w x ∈ (pushNbrs w h good c vis).1) := by
  obtain ⟨new, h2, hmono, hmem, hchar, hnd, hcard, hcompl⟩ :=
    foldPush_spec w h good (nbrs c) vis []
  unfold pushNbrs
  rw [show (List.foldl (push1 w h good) (vis, []) (nbrs c)).2 = new by simpa using h2]
  exact ⟨hmono, hmem, hchar, hnd, hcard, hcompl⟩

theorem floodLoop_fst_mono (w h : Nat) (good : Nat × Nat → Bool) :
    ∀ (f : Nat) (Q : List (Nat × Nat)) (vis : Finset Nat),
      vis ⊆ (floodLoop w h good f Q vis).1 := by
  intro f
  induction f with
  | zero => intro Q vis; simp [floodLoop]
  | succ f ih =>
    intro Q vis
    cases Q with
    | nil => simp [floodLoop]
    | cons c rest =>
      have h1 := (pushNbrs_spec w h good c vis).1
      show vis ⊆ (floodLoop w h good f
        (rest ++ (pushNbrs w h good c vis).2) (pushNbrs w h good c vis).1).1
      exact h1.trans (ih _ _)

/-- Every dequeued pixel is in-bounds and satisfies the membership predicate
(assuming the initial queue does). -/
theorem floodLoop_trace_mem (w h : Nat) (good : Nat × Nat → Bool) :
    ∀ (f : Nat) (Q : List (Nat × Nat)) (vis : Finset Nat),
      (∀ q ∈ Q, inB w h q = true ∧ good q = true) →
      ∀ t ∈ (floodLoop w h good f Q vis).2, inB w h t = true ∧ good t = true := by
  intro f
  induction f with
  | zero => intro Q vis _ t ht; simp [floodLoop] at ht
  | succ f ih =>
    intro Q vis hQ t ht
    cases Q with
    | nil => simp [floodLoop] at ht
    | cons c rest =>
      have hspec := pushNbrs_spec w h good c vis
      have ht' : t ∈ (c :: (floodLoop w h good f
          (rest ++ (pushNbrs w h good c vis).2) (pushNbrs w h good c vis).1).2) := ht
      rcases List.mem_cons.mp ht' with rfl | ht''
      · exact ⟨(hQ t (List.mem_cons_self _ _)).1, (hQ t (List.mem_cons_self _ _)).2⟩
      · refine ih _ _ ?_ t ht''
        intro q hq
        rcases List.mem_append.mp hq with hq' | hq'
        · exact hQ q (List.mem_cons_of_mem _ hq')
        · obtain ⟨_, hb, hg, _⟩ := hspec.2.1 q hq'
          exact ⟨hb, hg⟩

/-- A pixel whose index is already visited before the loop starts and which is
not on the queue is never dequeued. Stated for a whole avoided index set. -/
theorem floodLoop_trace_avoid (w h : Nat) (good : Nat × Nat → Bool) :
    ∀ (f : Nat) (Q : List (Nat × Nat)) (vis : Finset Nat) (A : Finset Nat),
      A ⊆ vis → (∀ q ∈ Q, gidx w q ∉ A) →
      ∀ t ∈ (floodLoop w h good f Q vis).2, gidx w t ∉ A := by
  intro f
  induction f with
  | zero => intro Q vis A _ _ t ht; simp [floodLoop] at ht
  | succ f ih =>
    intro Q vis A hA hQ t ht
    cases Q with
    | nil => simp [floodLoop] at ht
    | cons c rest =>
      have hspec := pushNbrs_spec w h good c vis
      have ht' : t ∈ (c :: (floodLoop w h good f
          (rest ++ (pushNbrs w h good c vis).2) (pushNbrs w h good c vis).1).2) := ht
      rcases List.mem_cons.mp ht' with rfl | ht''
      · exact hQ t (List.mem_cons_self _ _)
      · refine ih _ _ A (hA.trans hspec.1) ?_ t ht''
        intro q hq
        rcases List.mem_append.mp hq with hq' | hq'
        · exact hQ q (List.mem_cons_of_mem _ hq')
        · obtain ⟨_, _, _, hnv⟩ := hspec.2.1 q hq'
          exact fun hmem => hnv (hA hmem)

/-- No pixel is dequeued twice: the dequeue trace has pairwise distinct
indices (given a well-formed initial queue: in-bounds, already marked
visited, no duplicate indices). -/
theorem floodLoop_trace_nodup (w h : Nat) (good : Nat × Nat → Bool) :
    ∀ (f : Nat) (Q : List (Nat × Nat)) (vis : Finset Nat),
      (∀ q ∈ Q, inB w h q = true ∧ gidx w q ∈ vis) →
      (Q.map (gidx w)).Nodup →
      ((floodLoop w h good f Q vis).2.map (gidx w)).Nodup := by
  intro f
  induction f with
  | zero => intro Q vis _ _; simp [floodLoop]
  | succ f ih =>
    intro Q vis hQ hnd
    cases Q with
    | nil => simp [floodLoop]
    | cons c rest =>
      have hspec := pushNbrs_spec w h good c vis
      rw [List.map_cons, List.nodup_cons] at hnd
      show ((c :: (floodLoop w h good f
          (rest ++ (pushNbrs w h good c vis).2) (pushNbrs w h good c vis).1).2).map
            (gidx w)).Nodup
      rw [List.map_cons, List.nodup_cons]
      have hQrest : ∀ q ∈ rest ++ (pushNbrs w h good c vis).2,
          inB w h q = true ∧ gidx w q ∈ (pushNbrs w h good c vis).1 := by
        intro q hq
        rcases List.mem_append.mp hq with hq' | hq'
        · exact ⟨(hQ q (List.mem_cons_of_mem _ hq')).1,
            hspec.1 (hQ q (List.mem_cons_of_mem _ hq')).2⟩
        · obtain ⟨_, hb, _, _⟩ := hspec.2.1 q hq'
          refine ⟨hb, ?_⟩
          rw [hspec.2.2.1]
          exact Or.inr ⟨q, hq', rfl⟩
      constructor
      · -- c's index is not dequeued again
        intro hmem
        obtain ⟨t, ht, hta⟩ := List.mem_map.mp hmem
        have havoid := floodLoop_trace_avoid w h good f
          (rest ++ (pushNbrs w h good c vis).2) (pushNbrs w h good c vis).1 {gidx w c}
          (by
            intro a ha
            rw [Finset.mem_singleton] at ha
            subst ha
            exact hspec.1 (hQ c (List.mem_cons_self _ _)).2)
          (by
            intro q hq
            rw [Finset.mem_singleton]
            rcases List.mem_append.mp hq with hq' | hq'
            · intro heq
              exact hnd.1 (List.mem_map.mpr ⟨q, hq', heq⟩)
            · obtain ⟨_, _, _, hnv⟩ := hspec.2.1 q hq'
              intro heq
              exact hnv (by rw [heq]; exact (hQ c (List.mem_cons_self _ _)).2))
        exact havoid t ht (by rw [Finset.mem_singleton, hta])
      · refine ih _ _ hQrest ?_
        rw [List.map_append]
        rw [List.nodup_append]
        refine ⟨hnd.2, hspec.2.2.2.1, ?_⟩
        intro a ha hb
        obtain ⟨q, hq, hqa⟩ := List.mem_map.mp ha
        obtain ⟨x, hx, hxa⟩ := List.mem_map.mp hb
        obtain ⟨_, _, _, hnv⟩ := hspec.2.1 x hx
        apply hnv
        rw [hxa, ← hqa]
        exact (hQ q (List.mem_cons_of_mem _ hq)).2

/-- Soundness scaffold: any property that holds of the initial queue and is
closed under pushing an unvisited good in-bounds neighbour holds of every
dequeued pixel. -/
theorem floodLoop_trace_sound (w h : Nat) (good : Nat × Nat → Bool)
    (R : Nat × Nat → Prop) (V0 : Finset Nat)
    (hclose : ∀ c n, R c → n ∈ nbrs c → inB w h n = true → good n = true →
      gidx w n ∉ V0 → R n) :
    ∀ (f : Nat) (Q : List (Nat × Nat)) (vis : Finset Nat),
      V0 ⊆ vis → (∀ q ∈ Q, R q) →
      ∀ t ∈ (floodLoop w h good f Q vis).2, R t := by
  intro f
  induction f with
  | zero => intro Q vis _ _ t ht; simp [floodLoop] at ht
  | succ f ih =>
    intro Q vis hV hQ t ht
    cases Q with
    | nil => simp [floodLoop] at ht
    | cons c rest =>
      have hspec := pushNbrs_spec w h good c vis
      have ht' : t ∈ (c :: (floodLoop w h good f
          (rest ++ (pushNbrs w h good c vis).2) (pushNbrs w h good c vis).1).2) := ht
      rcases List.mem_cons.mp ht' with rfl | ht''
      · exact hQ t (List.mem_cons_self _ _)
      · refine ih _ _ (hV.trans hspec.1) ?_ t ht''
        intro q hq
        rcases List.mem_append.mp hq with hq' | hq'
        · exact hQ q (List.mem_cons_of_mem _ hq')
        · obtain ⟨hnb, hb, hg, hnv⟩ := hspec.2.1 q hq'
          exact hclose c q (hQ c (List.mem_cons_self _ _)) hnb hb hg
            fun hmem => hnv (hV hmem)

/-- Drain lemma: with fuel dominating the decreasing measure, every queued
pixel is dequeued, the final visited set is the initial one plus the dequeued
indices, and the final state is stable (every good in-bounds neighbour of a
dequeued pixel is visited at the end). -/
theorem floodLoop_drain (w h : Nat) (good : Nat × Nat → Bool) :
    ∀ (f : Nat) (Q : List (Nat × Nat)) (vis : Finset Nat),
      (Finset.range (w * h) \ vis).card + Q.length ≤ f →
      (∀ q ∈ Q, inB w h q = true ∧ good q = true ∧ gidx w q ∈ vis) →
      (∀ q ∈ Q, q ∈ (floodLoop w h good f Q vis).2) ∧
      (∀ a, a ∈ (floodLoop w h good f Q vis).1 ↔
        a ∈ vis ∨ ∃ t ∈ (floodLoop w h good f Q vis).2, gidx w t = a) ∧
      (∀ c ∈ (floodLoop w h good f Q vis).2, ∀ n ∈ nbrs c,
        inB w h n = true → good n = true → gidx w n ∈ (floodLoop w h good f Q vis).1) := by
  intro f
  induction f with
  | zero =>
    intro Q vis hf hQ
    have hQnil : Q = [] := List.length_eq_zero.mp (by omega)
    subst hQnil
    refine ⟨by simp, ?_, by simp [floodLoop]⟩
    intro a
    simp [floodLoop]
  | succ f ih =>
    intro Q vis hf hQ
    cases Q with
    | nil =>
      refine ⟨by simp, ?_, by simp [floodLoop]⟩
      intro a
      simp [floodLoop]
    | cons c rest =>
      have hspec := pushNbrs_spec w h good c vis
      have hQ' : ∀ q ∈ rest ++ (pushNbrs w h good c vis).2,
          inB w h q = true ∧ good q = true ∧ gidx w q ∈ (pushNbrs w h good c vis).1 := by
        intro q hq
        rcases List.mem_append.mp hq with hq' | hq'
        · obtain ⟨hb, hg, hv⟩ := hQ q (List.mem_cons_of_mem _ hq')
          exact ⟨hb, hg, hspec.1 hv⟩
        · obtain ⟨_, hb, hg, _⟩ := hspec.2.1 q hq'
          refine ⟨hb, hg, ?_⟩
          rw [hspec.2.2.1]
          exact Or.inr ⟨q, hq', rfl⟩
      have hf' : (Finset.range (w * h) \ (pushNbrs w h good c vis).1).card +
          (rest ++ (pushNbrs w h good c vis).2).length ≤ f := by
        have hcard := hspec.2.2.2.2.1
        simp only [List.length_append]
        simp only [List.length_cons] at hf
        omega
      obtain ⟨ih1, ih2, ih3⟩ := ih (rest ++ (pushNbrs w h good c vis).2)
        (pushNbrs w h good c vis).1 hf' hQ'
      have hshape :
          floodLoop w h good (f + 1) (c :: rest) vis =
            ((floodLoop w h good f (rest ++ (pushNbrs w h good c vis).2)
                (pushNbrs w h good c vis).1).1,
             c :: (floodLoop w h good f (rest ++ (pushNbrs w h good c vis).2)
                (pushNbrs w h good c vis).1).2) := rfl
      rw [hshape]
      refine ⟨?_, ?_, ?_⟩
      · intro q hq
        rcases List.mem_cons.mp hq with rfl | hq'
        · exact List.mem_cons_self _ _
        · exact List.mem_cons_of_mem _ (ih1 q (List.mem_append_left _ hq'))
      · intro a
        rw [ih2 a, hspec.2.2.1]
        constructor
        · rintro ((hv | ⟨x, hx, hxa⟩) | ⟨t, ht, hta⟩)
          · exact Or.inl hv
          · exact Or.inr ⟨x, List.mem_cons_of_mem _
              (ih1 x (List.mem_append_right _ hx)), hxa⟩
          · exact Or.inr ⟨t, List.mem_cons_of_mem _ ht, hta⟩
        · rintro (hv | ⟨t, ht, hta⟩)
          · exact Or.inl (Or.inl hv)
          · rcases List.mem_cons.mp ht with rfl | ht'
            · exact Or.inl (Or.inl (by rw [← hta]; exact (hQ t (List.mem_cons_self _ _)).2.2))
            · exact Or.inr ⟨t, ht', hta⟩
      · intro c' hc' n hn hb hg
        rcases List.mem_cons.mp hc' with rfl | hc''
        · -- neighbours of the head are visited right after the push step
          have hin : gidx w n ∈ (pushNbrs w h good c' vis).1 :=
            hspec.2.2.2.2.2 n hn hb hg
          exact floodLoop_fst_mono w h good f _ _ hin
        · exact ih3 c' hc'' n hn hb hg

/-- Shrinking the avoided set preserves reachability. -/
theorem Reach.mono {w h : Nat} {good : Nat × Nat → Bool} {A B : Finset Nat}
    (hBA : B ⊆ A) {p q : Nat × Nat} (hr : Reach w h good A p q) :
    Reach w h good B p q := by
  induction hr with
  | refl => exact Reach.refl _
  | step _ hnb hb hg hav ih => exact Reach.step ih hnb hb hg fun hm => hav (hBA hm)

/-- Every pixel reached from `p` is `p` itself or in-bounds and good. -/
theorem Reach.target {w h : Nat} {good : Nat × Nat → Bool} {A : Finset Nat}
    {p q : Nat × Nat} (hr : Reach w h good A p q) :
    q = p ∨ (inB w h q = true ∧ good q = true) := by
  induction hr with
  | refl => exact Or.inl rfl
  | step _ hnb hb hg _ _ => exact Or.inr ⟨hb, hg⟩

theorem Reach.trans {w h : Nat} {good : Nat × Nat → Bool} {A : Finset Nat}
    {p q r : Nat × Nat} (h1 : Reach w h good A p q) (h2 : Reach w h good A q r) :
    Reach w h good A p r := by
  induction h2 with
  | refl => exact h1
  | step _ hnb hb hg hav ih => exact Reach.step ih hnb hb hg hav

/-- Unavoided reachability is symmetric when the start is an in-bounds good
pixel. -/
theorem Reach.symm {w h : Nat} {good : Nat × Nat → Bool} {p q : Nat × Nat}
    (hb : inB w h p = true) (hg : good p = true)
    (hr : Reach w h good ∅ p q) : Reach w h good ∅ q p := by
  induction hr with
  | refl => exact Reach.refl _
  | @step q' r' hpq hnb hb' hg' hav ih =>
    have hq' : inB w h q' = true ∧ good q' = true := by
      rcases hpq.target with rfl | hgood
      · exact ⟨hb, hg⟩
      · exact hgood
    refine Reach.trans ?_ ih
    exact Reach.step (Reach.refl r') (nbrs_symm hnb) hq'.1 hq'.2 (by simp)

/-- The dequeue trace of a drained flood fill is exactly the set of pixels
reachable from the initial queue while avoiding the initially visited
indices. -/
theorem floodLoop_trace_char (w h : Nat) (good : Nat × Nat → Bool)
    (f : Nat) (Q : List (Nat × Nat)) (vis : Finset Nat)
    (hf : (Finset.range (w * h) \ vis).card + Q.length ≤ f)
    (hQ : ∀ q ∈ Q, inB w h q = true ∧ good q = true ∧ gidx w q ∈ vis) :
    ∀ p, p ∈ (floodLoop w h good f Q vis).2 ↔
      ∃ b ∈ Q, Reach w h good vis b p := by
  obtain ⟨h1, h2, h3⟩ := floodLoop_drain w h good f Q vis hf hQ
  intro p
  constructor
  · intro hp
    refine floodLoop_trace_sound w h good
      (fun t => ∃ b ∈ Q, Reach w h good vis b t) vis ?_ f Q vis
      (le_refl _) ?_ p hp
    · intro c n hR hnb hb hg hnv
      obtain ⟨b, hbQ, hreach⟩ := hR
      exact ⟨b, hbQ, Reach.step hreach hnb hb hg hnv⟩
    · intro q hq
      exact ⟨q, hq, Reach.refl _⟩
  · rintro ⟨b, hbQ, hreach⟩
    induction hreach with
    | refl => exact h1 b hbQ
    | @step q' r' hpq hnb hb hg hav ih =>
      have hq' : q' ∈ (floodLoop w h good f Q vis).2 := ih
      have hvr : gidx w r' ∈ (floodLoop w h good f Q vis).1 := h3 q' hq' r' hnb hb hg
      rcases (h2 (gidx w r')).mp hvr with hv | ⟨t, ht, hta⟩
      · exact absurd hv hav
      · have htb :=
          floodLoop_trace_mem w h good f Q vis (fun q hq => ⟨(hQ q hq).1, (hQ q hq).2.1⟩) t ht
        have : t = r' := gidx_injOn htb.1 hb hta
        rw [← this]
        exact ht

/-! ### Row-major enumeration facts -/
theorem rowMajor_eq (w h : Nat) :
    rowMajor w h = (List.range (w * h)).map (fun i => (i % w, i / w)) := by
  by_cases hw : w = 0
  · subst hw
    simp [rowMajor]
  · have hw' : 0 < w := Nat.pos_of_ne_zero hw
    induction h with
    | zero => simp [rowMajor]
    | succ h ih =>
      have hsplit : List.range (w * (h + 1)) =
          List.range (w * h) ++ (List.range w).map (fun x => w * h + x) := by
        have hws : w * (h + 1) = w * h + w := by ring
        rw [hws, List.range_add]
      have hstep : rowMajor w (h + 1) =
          rowMajor w h ++ (List.range w).map (fun x => (x, h)) := by
        simp only [rowMajor, List.range_succ, List.flatMap_append,
          List.flatMap_singleton]
      rw [hstep, ih, hsplit, List.map_append]
      congr 1
      · rw [List.map_map]
        apply List.map_congr_left
        intro x hx
        rw [List.mem_range] at hx
        have h1 : (w * h + x) % w = x := by
          rw [Nat.mul_add_mod]
          exact Nat.mod_eq_of_lt hx
        have h2 : (w * h + x) / w = h := by
          rw [Nat.mul_add_div hw']
          simp [Nat.div_eq_of_lt hx]
        simp [h1, h2]

theorem gidx_unrank {w : Nat} (hw : 0 < w) (i : Nat) :
    gidx w (i % w, i / w) = i := by
  show i / w * w + i % w = i
  rw [Nat.mul_comm]
  exact Nat.div_add_mod i w

theorem unrank_inB {w h : Nat} (hw : 0 < w) {i : Nat} (hi : i < w * h) :
    inB w h (i % w, i / w) = true := by
  rw [inB_iff]
  refine ⟨Nat.mod_lt _ hw, ?_⟩
  rw [Nat.div_lt_iff_lt_mul hw]
  have hc : w * h = h * w := Nat.mul_comm w h
  omega

theorem mem_rowMajor {w h : Nat} {p : Nat × Nat} :
    p ∈ rowMajor w h ↔ inB w h p = true := by
  rw [rowMajor_eq]
  constructor
  · intro hp
    obtain ⟨i, hi, hip⟩ := List.mem_map.mp hp
    rw [List.mem_range] at hi
    have hw : 0 < w := by
      rcases Nat.eq_zero_or_pos w with h0 | h0
      · subst h0; omega
      · exact h0
    rw [← hip]
    exact unrank_inB hw hi
  · intro hp
    have hw : 0 < w := lt_of_le_of_lt (Nat.zero_le _) (inB_iff.mp hp).1
    refine List.mem_map.mpr ⟨gidx w p, ?_, ?_⟩
    · rw [List.mem_range]
      exact gidx_lt hp
    · obtain ⟨hx, hy⟩ := inB_iff.mp hp
      unfold gidx
      have h1 : (p.2 * w + p.1) % w = p.1 := by
        rw [Nat.mul_comm p.2 w, Nat.mul_add_mod]
        exact Nat.mod_eq_of_lt hx
      have h2 : (p.2 * w + p.1) / w = p.2 := by
        rw [Nat.mul_comm p.2 w, Nat.mul_add_div hw]
        simp [Nat.div_eq_of_lt hx]
      simp [h1, h2]

/-! ### Folded bounding boxes compute min/max over the trace -/
theorem foldl_min_le_start (l : List Nat) : ∀ a : Nat, l.foldl min a ≤ a := by
  induction l with
  | nil => intro a; simp
  | cons x l ih =>
    intro a
    calc l.foldl min (min a x) ≤ min a x := ih _
      _ ≤ a := min_le_left _ _

theorem foldl_min_le (l : List Nat) : ∀ (a : Nat), ∀ x ∈ l, l.foldl min a ≤ x := by
  induction l with
  | nil => intro a x hx; simp at hx
  | cons y l ih =>
    intro a x hx
    rcases List.mem_cons.mp hx with rfl | hx'
    · calc l.foldl min (min a x) ≤ min a x := foldl_min_le_start _ _
        _ ≤ x := min_le_right _ _
    · exact ih _ x hx'

theorem foldl_min_mem (l : List Nat) : ∀ a : Nat,
    l.foldl min a = a ∨ ∃ x ∈ l, l.foldl min a = x := by
  induction l with
  | nil => intro a; exact Or.inl rfl
  | cons y l ih =>
    intro a
    rcases ih (min a y) with h | ⟨x, hx, hex⟩
    · rcases Nat.le_total a y with hay | hay
      · rw [List.foldl_cons, h, min_eq_left hay]
        exact Or.inl rfl
      · rw [List.foldl_cons, h, min_eq_right hay]
        exact Or.inr ⟨y, List.mem_cons_self _ _, rfl⟩
    · exact Or.inr ⟨x, List.mem_cons_of_mem _ hx, hex⟩

theorem foldl_max_ge_start (l : List Nat) : ∀ a : Nat, a ≤ l.foldl max a := by
  induction l with
  | nil => intro a; simp
  | cons x l ih =>
    intro a
    calc a ≤ max a x := le_max_left _ _
      _ ≤ l.foldl max (max a x) := ih _

theorem foldl_max_ge (l : List Nat) : ∀ (a : Nat), ∀ x ∈ l, x ≤ l.foldl max a := by
  induction l with
  | nil => intro a x hx; simp at hx
  | cons y l ih =>
    intro a x hx
    rcases List.mem_cons.mp hx with rfl | hx'
    · calc x ≤ max a x := le_max_right _ _
        _ ≤ l.foldl max (max a x) := foldl_max_ge_start _ _
    · exact ih _ x hx'

theorem foldl_max_mem (l : List Nat) : ∀ a : Nat,
    l.foldl max a = a ∨ ∃ x ∈ l, l.foldl max a = x := by
  induction l with
  | nil => intro a; exact Or.inl rfl
  | cons y l ih =>
    intro a
    rcases ih (max a y) with h | ⟨x, hx, hex⟩
    · rcases Nat.le_total a y with hay | hay
      · rw [List.foldl_cons, h, max_eq_right hay]
        exact Or.inr ⟨y, List.mem_cons_self _ _, rfl⟩
      · rw [List.foldl_cons, h, max_eq_left hay]
        exact Or.inl rfl
    · exact Or.inr ⟨x, List.mem_cons_of_mem _ hx, hex⟩

theorem foldl_extendBox_minX (T : List (Nat × Nat)) : ∀ b : BBoxAcc,
    (T.foldl extendBox b).minX = (T.map Prod.fst).foldl min b.minX := by
  induction T with
  | nil => intro b; rfl
  | cons t T ih => intro b; rw [List.foldl_cons, ih]; rfl

theorem foldl_extendBox_minY (T : List (Nat × Nat)) : ∀ b : BBoxAcc,
    (T.foldl extendBox b).minY = (T.map Prod.snd).foldl min b.minY := by
  induction T with
  | nil => intro b; rfl
  | cons t T ih => intro b; rw [List.foldl_cons, ih]; rfl

theorem foldl_extendBox_maxX (T : List (Nat × Nat)) : ∀ b : BBoxAcc,
    (T.foldl extendBox b).maxX = (T.map Prod.fst).foldl max b.maxX := by
  induction T with
  | nil => intro b; rfl
  | cons t T ih => intro b; rw [List.foldl_cons, ih]; rfl

theorem foldl_extendBox_maxY (T : List (Nat × Nat)) : ∀ b : BBoxAcc,
    (T.foldl extendBox b).maxY = (T.map Prod.snd).foldl max b.maxY := by
  induction T with
  | nil => intro b; rfl
  | cons t T ih => intro b; rw [List.foldl_cons, ih]; rfl

/-! ### Connectivity helpers -/
theorem connF_refl (img : ImageData) (o : DetectOptions) (p : Nat × Nat) :
    ConnF img o p p := Reach.refl p

theorem connF_trans {img : ImageData} {o : DetectOptions} {p q r : Nat × Nat}
    (h1 : ConnF img o p q) (h2 : ConnF img o q r) : ConnF img o p r :=
  Reach.trans h1 h2

theorem connF_symm {img : ImageData} {o : DetectOptions} {p q : Nat × Nat}
    (hb : inB img.width img.height p = true) (hg : fgP img o p = true)
    (h : ConnF img o p q) : ConnF img o q p :=
  Reach.symm hb hg h

/-- Connected pixels have the same component. -/
theorem comp_congr {img : ImageData} {o : DetectOptions} {p q : Nat × Nat}
    (hb : inB img.width img.height p = true) (hg : fgP img o p = true)
    (hpq : ConnF img o p q) : CompSet img o q = CompSet img o p := by
  ext r
  constructor
  · rintro ⟨hrB, hqr⟩
    exact ⟨hrB, connF_trans hpq hqr⟩
  · rintro ⟨hrB, hpr⟩
    exact ⟨hrB, connF_trans (connF_symm hb hg hpq) hpr⟩

/-- The cut lemma: a foreground path from a seed `s` avoids the pre-scan
visited set (which is disjoint from `s`'s component) and can be rerouted to
also avoid `s`'s own index — exactly the avoidance discipline of the fill
seeded at `s`. -/
theorem reach_avoid_upgrade (img : ImageData) (o : DetectOptions)
    {s p : Nat × Nat} (vis : Finset Nat)
    (hs : inB img.width img.height s = true)
    (hdisj : ∀ q, inB img.width img.height q = true → ConnF img o s q →
      gidx img.width q ∉ vis)
    (hr : ConnF img o s p) :
    Reach img.width img.height (fgP img o) (insert (gidx img.width s) vis) s p := by
  induction hr with
  | refl => exact Reach.refl _
  | @step q' r' hpq hnb hb hg hav ih =>
    by_cases heq : gidx img.width r' = gidx img.width s
    · have hrs : r' = s := gidx_injOn hb hs heq
      rw [hrs]
      exact Reach.refl _
    · refine Reach.step ih hnb hb hg ?_
      rw [Finset.mem_insert]
      push_neg
      exact ⟨heq, hdisj r' hb (Reach.step hpq hnb hb hg hav)⟩

theorem seen_mono {img : ImageData} {o : DetectOptions} {k : Nat} {p : Nat × Nat}
    (h : seen img o k p) : seen img o (k + 1) p := by
  rcases h with ⟨h1, h2⟩ | ⟨h1, q, hq, h2⟩
  · exact Or.inl ⟨h1, by omega⟩
  · exact Or.inr ⟨h1, q, hq, by omega⟩

theorem fgP_iff {img : ImageData} {o : DetectOptions} {p : Nat × Nat} :
    fgP img o p = true ↔ isBackground img o p = false := by
  simp [fgP]

theorem boxes_prefix_succ (img : ImageData) (o : DetectOptions) (k : Nat) :
    ((List.range (k + 1)).map
        (fun i => (i % img.width, i / img.width))).filterMap (specEntry img o) =
      ((List.range k).map
        (fun i => (i % img.width, i / img.width))).filterMap (specEntry img o) ++
        (specEntry img o (k % img.width, k / img.width)).toList := by
  rw [List.range_succ, List.map_append, List.filterMap_append]
  cases h : specEntry img o (k % img.width, k / img.width) <;> simp [h]

/-- Scan-step invariant maintenance, case "pixel already visited". -/
theorem scanInv_step_visited (img : ImageData) (o : DetectOptions) (k : Nat)
    (st : ScanState) (hw : 0 < img.width) (hk : k < img.width * img.height)
    (hinv : ScanInv img o k st)
    (hpv : gidx img.width (k % img.width, k / img.width) ∈ st.vis) :
    ScanInv img o (k + 1) st := by
  obtain ⟨hvis, hboxes, htr1, htr2, htr3, htr4⟩ := hinv
  have hpB : inB img.width img.height (k % img.width, k / img.width) = true :=
    unrank_inB hw hk
  have hpg : gidx img.width (k % img.width, k / img.width) = k := gidx_unrank hw k
  -- `p` must be foreground with an already-seen component
  have hpfg : fgP img o (k % img.width, k / img.width) = true ∧
      ∃ q ∈ CompSet img o (k % img.width, k / img.width), gidx img.width q < k := by
    rcases (hvis _ hpB).mp hpv with ⟨_, hlt⟩ | h2
    · rw [hpg] at hlt; omega
    · exact h2
  refine ⟨?_, ?_, htr1, htr2, htr3, htr4⟩
  · intro q hqB
    rw [hvis q hqB]
    constructor
    · exact seen_mono
    · rintro (⟨hbg, hlt⟩ | ⟨hfg, q', hq', hlt⟩)
      · rcases Nat.lt_or_ge (gidx img.width q) k with hl | hg
        · exact Or.inl ⟨hbg, hl⟩
        · have hqk : gidx img.width q = k := by omega
          have hqp : q = (k % img.width, k / img.width) :=
            gidx_injOn hqB hpB (by rw [hqk, hpg])
          rw [hqp] at hbg
          rw [fgP_iff] at hpfg
          rw [hpfg.1] at hbg
          exact absurd hbg (by simp)
      · rcases Nat.lt_or_ge (gidx img.width q') k with hl | hg
        · exact Or.inr ⟨hfg, q', hq', hl⟩
        · have hq'k : gidx img.width q' = k := by omega
          have hq'p : q' = (k % img.width, k / img.width) :=
            gidx_injOn hq'.1 hpB (by rw [hq'k, hpg])
          -- q's component equals p's component, which has an earlier pixel
          have hcomp : CompSet img o (k % img.width, k / img.width) =
              CompSet img o q := comp_congr hqB hfg (hq'p ▸ hq'.2)
          obtain ⟨r, hr, hrlt⟩ := hpfg.2
          exact Or.inr ⟨hfg, r, hcomp ▸ hr, by omega⟩
  · rw [hboxes, boxes_prefix_succ]
    have hnone : specEntry img o (k % img.width, k / img.width) = none := by
      unfold specEntry
      rw [if_neg]
      rintro ⟨_, _, hfirst⟩
      obtain ⟨q', hq', hlt⟩ := hpfg.2
      have := hfirst q' hq'
      rw [hpg] at this
      omega
    rw [hnone]
    simp

/-- Scan-step invariant maintenance, case "unvisited background pixel". -/
theorem scanInv_step_bg (img : ImageData) (o : DetectOptions) (k : Nat)
    (st : ScanState) (hw : 0 < img.width) (hk : k < img.width * img.height)
    (hinv : ScanInv img o k st)
    (hpv : gidx img.width (k % img.width, k / img.width) ∉ st.vis)
    (hpbg : isBackground img o (k % img.width, k / img.width) = true) :
    ScanInv img o (k + 1)
      ⟨insert (gidx img.width (k % img.width, k / img.width)) st.vis,
        st.boxes, st.trace⟩ := by
  obtain ⟨hvis, hboxes, htr1, htr2, htr3, htr4⟩ := hinv
  have hpB : inB img.width img.height (k % img.width, k / img.width) = true :=
    unrank_inB hw hk
  have hpg : gidx img.width (k % img.width, k / img.width) = k := gidx_unrank hw k
  have hpnf : fgP img o (k % img.width, k / img.width) = false := by
    simp [fgP, hpbg]
  refine ⟨?_, ?_, htr1, htr2, ?_, ?_⟩
  · intro q hqB
    simp only [Finset.mem_insert]
    constructor
    · rintro (heq | hv)
      · have hqp : q = (k % img.width, k / img.width) :=
          gidx_injOn hqB hpB (by rw [heq])
        rw [hqp]
        exact Or.inl ⟨hpbg, by omega⟩
      · exact seen_mono ((hvis q hqB).mp hv)
    · rintro (⟨hbg, hlt⟩ | ⟨hfg, q', hq', hlt⟩)
      · rcases Nat.lt_or_ge (gidx img.width q) k with hl | hg
        · exact Or.inr ((hvis q hqB).mpr (Or.inl ⟨hbg, hl⟩))
        · exact Or.inl (by rw [hpg]; omega)
      · rcases Nat.lt_or_ge (gidx img.width q') k with hl | hg
        · exact Or.inr ((hvis q hqB).mpr (Or.inr ⟨hfg, q', hq', hl⟩))
        · -- the fresh witness would have to be the background pixel `p`
          exfalso
          have hq'k : gidx img.width q' = k := by omega
          have hq'p : q' = (k % img.width, k / img.width) :=
            gidx_injOn hq'.1 hpB (by rw [hq'k, hpg])
          have hconn := hq'.2
          rw [hq'p] at hconn
          rcases Reach.target hconn with hqeq | ⟨_, hgood⟩
          · rw [← hqeq] at hfg
            rw [hpnf] at hfg
            exact Bool.false_ne_true hfg
          · rw [hpnf] at hgood
            exact Bool.false_ne_true hgood
  · rw [hboxes, boxes_prefix_succ]
    have hnone : specEntry img o (k % img.width, k / img.width) = none := by
      unfold specEntry
      rw [if_neg]
      rintro ⟨_, hfg, _⟩
      rw [hpnf] at hfg
      exact absurd hfg (by simp)
    rw [hnone]
    simp
  · intro t ht
    exact Finset.mem_insert_of_mem (htr3 t ht)
  · intro q hqB hqfg hqv
    rcases Finset.mem_insert.mp hqv with heq | hv
    · exfalso
      have hqp : q = (k % img.width, k / img.width) :=
        gidx_injOn hqB hpB (by rw [heq])
      rw [hqp, hpnf] at hqfg
      exact absurd hqfg (by simp)
    · exact htr4 q hqB hqfg hv

theorem fold_min_eq_sInf (l : List Nat) (a : Nat) (S : Set Nat)
    (ha : a ∈ S) (hl : ∀ x ∈ l, x ∈ S) (hS : ∀ x ∈ S, x ∈ l) :
    l.foldl min a = sInf S := by
  apply le_antisymm
  · exact foldl_min_le l a _ (hS _ (Nat.sInf_mem ⟨a, ha⟩))
  · rcases foldl_min_mem l a with he | ⟨x, hx, he⟩
    · rw [he]; exact Nat.sInf_le ha
    · rw [he]; exact Nat.sInf_le (hl x hx)

theorem fold_max_eq_sSup (l : List Nat) (a : Nat) (S : Set Nat)
    (ha : a ∈ S) (hl : ∀ x ∈ l, x ∈ S) (hS : ∀ x ∈ S, x ∈ l)
    (hbdd : BddAbove S) :
    l.foldl max a = sSup S := by
  apply le_antisymm
  · rcases foldl_max_mem l a with he | ⟨x, hx, he⟩
    · rw [he]; exact le_csSup hbdd ha
    · rw [he]; exact le_csSup hbdd (hl x hx)
  · exact foldl_max_ge l a _ (hS _ (Nat.sSup_mem ⟨a, ha⟩ hbdd))

/-- Scan-step invariant maintenance, case "unvisited foreground pixel":
the fill visits exactly `p`'s component, whose box is emitted iff both
extents exceed 5, and `p` is its component's first pixel in scan order. -/
theorem scanInv_step_fg (img : ImageData) (o : DetectOptions) (k : Nat)
    (st : ScanState) (p : Nat × Nat)
    (hpB : inB img.width img.height p = true)
    (hpg : gidx img.width p = k)
    (hinv : ScanInv img o k st)
    (hpv : gidx img.width p ∉ st.vis)
    (hpbg : isBackground img o p = false) :
    ScanInv img o (k + 1)
      ⟨(detFill img o st p).1,
        st.boxes ++
          (if 5 < (detBox img o st p).maxX - (detBox img o st p).minX ∧
              5 < (detBox img o st p).maxY - (detBox img o st p).minY then
            [⟨(detBox img o st p).minX, (detBox img o st p).minY,
              (detBox img o st p).maxX - (detBox img o st p).minX + 1,
              (detBox img o st p).maxY - (detBox img o st p).minY + 1⟩]
          else []),
        st.trace ++ (detFill img o st p).2⟩ := by
  obtain ⟨hvis, hboxes, htr1, htr2, htr3, htr4⟩ := hinv
  have hpfg : fgP img o p = true := fgP_iff.mpr hpbg
  have hpC : p ∈ CompSet img o p := ⟨hpB, Reach.refl p⟩
  -- fuel dominates the measure
  have hNcard : (Finset.range (img.width * img.height) \
      insert (gidx img.width p) st.vis).card + ([p] : List (Nat × Nat)).length ≤
      img.width * img.height + 1 := by
    have h1 : (Finset.range (img.width * img.height) \
        insert (gidx img.width p) st.vis).card ≤ img.width * img.height := by
      calc (Finset.range (img.width * img.height) \
            insert (gidx img.width p) st.vis).card
          ≤ (Finset.range (img.width * img.height)).card :=
            Finset.card_le_card Finset.sdiff_subset
        _ = img.width * img.height := Finset.card_range _
    simp only [List.length_cons, List.length_nil]
    omega
  have hQ1 : ∀ q ∈ ([p] : List (Nat × Nat)), inB img.width img.height q = true ∧
      fgP img o q = true ∧ gidx img.width q ∈ insert (gidx img.width p) st.vis := by
    intro q hq
    rw [List.mem_singleton] at hq
    subst hq
    exact ⟨hpB, hpfg, Finset.mem_insert_self _ _⟩
  obtain ⟨hd1, hd2, hd3⟩ := floodLoop_drain img.width img.height (fgP img o)
    (img.width * img.height + 1) [p] (insert (gidx img.width p) st.vis) hNcard hQ1
  have hchar := floodLoop_trace_char img.width img.height (fgP img o)
    (img.width * img.height + 1) [p] (insert (gidx img.width p) st.vis) hNcard hQ1
  -- p is the first pixel of its component in scan order
  have hfirst : ∀ q ∈ CompSet img o p, gidx img.width p ≤ gidx img.width q := by
    intro q hq
    by_contra hlt
    push_neg at hlt
    exact hpv ((hvis p hpB).mpr (Or.inr ⟨hpfg, q, hq, by omega⟩))
  -- nothing of p's component is visited before the fill
  have hdisj : ∀ q, inB img.width img.height q = true → ConnF img o p q →
      gidx img.width q ∉ st.vis := by
    intro q hqB hconn hmem
    rcases (hvis q hqB).mp hmem with ⟨hbg, _⟩ | ⟨hfg, r, hr, hrlt⟩
    · rcases Reach.target hconn with hqeq | ⟨_, hgood⟩
      · rw [hqeq, hpbg] at hbg
        exact Bool.false_ne_true hbg
      · rw [fgP_iff] at hgood
        rw [hgood] at hbg
        exact Bool.false_ne_true hbg
    · have hcomp : CompSet img o q = CompSet img o p := comp_congr hpB hpfg hconn
      rw [hcomp] at hr
      exact hpv ((hvis p hpB).mpr (Or.inr ⟨hpfg, r, hr, hrlt⟩))
  -- the dequeue trace is exactly p's component
  have htrC : ∀ t, t ∈ (detFill img o st p).2 ↔ t ∈ CompSet img o p := by
    intro t
    show t ∈ (floodLoop _ _ _ _ _ _).2 ↔ _
    rw [hchar t]
    constructor
    · rintro ⟨b, hb, hreach⟩
      rw [List.mem_singleton] at hb
      subst hb
      have hconn : ConnF img o b t := Reach.mono (Finset.empty_subset _) hreach
      refine ⟨?_, hconn⟩
      rcases Reach.target hreach with hteq | ⟨htB, _⟩
      · rw [hteq]; exact hpB
      · exact htB
    · rintro ⟨htB, hconn⟩
      exact ⟨p, List.mem_singleton.mpr rfl,
        reach_avoid_upgrade img o st.vis hpB hdisj hconn⟩
  have hpT : p ∈ (detFill img o st p).2 := hd1 p (List.mem_singleton.mpr rfl)
  have htrB : ∀ t ∈ (detFill img o st p).2,
      inB img.width img.height t = true ∧ fgP img o t = true := by
    intro t ht
    have := (htrC t).mp ht
    refine ⟨this.1, ?_⟩
    rcases Reach.target this.2 with hteq | ⟨_, hg⟩
    · rw [hteq]; exact hpfg
    · exact hg
  -- bounding-box fields are the componentwise extrema
  have hminX : (detBox img o st p).minX = sInf (Prod.fst '' CompSet img o p) := by
    rw [detBox, foldl_extendBox_minX]
    refine fold_min_eq_sInf _ _ _ ⟨p, hpC, rfl⟩ ?_ ?_
    · intro x hx
      obtain ⟨t, ht, rfl⟩ := List.mem_map.mp hx
      exact ⟨t, (htrC t).mp ht, rfl⟩
    · rintro x ⟨q, hq, rfl⟩
      exact List.mem_map.mpr ⟨q, (htrC q).mpr hq, rfl⟩
  have hminY : (detBox img o st p).minY = sInf (Prod.snd '' CompSet img o p) := by
    rw [detBox, foldl_extendBox_minY]
    refine fold_min_eq_sInf _ _ _ ⟨p, hpC, rfl⟩ ?_ ?_
    · intro x hx
      obtain ⟨t, ht, rfl⟩ := List.mem_map.mp hx
      exact ⟨t, (htrC t).mp ht, rfl⟩
    · rintro x ⟨q, hq, rfl⟩
      exact List.mem_map.mpr ⟨q, (htrC q).mpr hq, rfl⟩
  have hbddX : BddAbove (Prod.fst '' CompSet img o p) := by
    refine ⟨img.width, ?_⟩
    rintro x ⟨q, hq, rfl⟩
    exact le_of_lt (inB_iff.mp hq.1).1
  have hbddY : BddAbove (Prod.snd '' CompSet img o p) := by
    refine ⟨img.height, ?_⟩
    rintro x ⟨q, hq, rfl⟩
    exact le_of_lt (inB_iff.mp hq.1).2
  have hmaxX : (detBox img o st p).maxX = sSup (Prod.fst '' CompSet img o p) := by
    rw [detBox, foldl_extendBox_maxX]
    refine fold_max_eq_sSup _ _ _ ⟨p, hpC, rfl⟩ ?_ ?_ hbddX
    · intro x hx
      obtain ⟨t, ht, rfl⟩ := List.mem_map.mp hx
      exact ⟨t, (htrC t).mp ht, rfl⟩
    · rintro x ⟨q, hq, rfl⟩
      exact List.mem_map.mpr ⟨q, (htrC q).mpr hq, rfl⟩
  have hmaxY : (detBox img o st p).maxY = sSup (Prod.snd '' CompSet img o p) := by
    rw [detBox, foldl_extendBox_maxY]
    refine fold_max_eq_sSup _ _ _ ⟨p, hpC, rfl⟩ ?_ ?_ hbddY
    · intro x hx
      obtain ⟨t, ht, rfl⟩ := List.mem_map.mp hx
      exact ⟨t, (htrC t).mp ht, rfl⟩
    · rintro x ⟨q, hq, rfl⟩
      exact List.mem_map.mpr ⟨q, (htrC q).mpr hq, rfl⟩
  have hentry : specEntry img o p =
      (if 5 < (detBox img o st p).maxX - (detBox img o st p).minX ∧
          5 < (detBox img o st p).maxY - (detBox img o st p).minY then
        some ⟨(detBox img o st p).minX, (detBox img o st p).minY,
          (detBox img o st p).maxX - (detBox img o st p).minX + 1,
          (detBox img o st p).maxY - (detBox img o st p).minY + 1⟩
      else none) := by
    unfold specEntry
    rw [if_pos ⟨hpB, hpfg, hfirst⟩, ← hminX, ← hminY, ← hmaxX, ← hmaxY]
  -- assemble the six invariant components
  refine ⟨?_, ?_, ?_, ?_, ?_, ?_⟩
  · -- visited characterisation
    intro q hqB
    show gidx img.width q ∈ (floodLoop _ _ _ _ _ _).1 ↔ _
    rw [hd2 (gidx img.width q)]
    constructor
    · rintro (hv0 | ⟨t, ht, hta⟩)
      · rcases Finset.mem_insert.mp hv0 with heq | hv
        · have hqp : q = p := gidx_injOn hqB hpB heq
          rw [hqp]
          exact Or.inr ⟨hpfg, p, hpC, by omega⟩
        · exact seen_mono ((hvis q hqB).mp hv)
      · have htB := htrB t ht
        have htq : t = q := gidx_injOn htB.1 hqB hta
        rw [htq] at ht
        have hqC := (htrC q).mp ht
        refine Or.inr ⟨?_, p, ?_, by omega⟩
        · rcases Reach.target hqC.2 with hqeq | ⟨_, hg⟩
          · rw [hqeq]; exact hpfg
          · exact hg
        · -- p is in q's component
          have hqfg : fgP img o q = true := by
            rcases Reach.target hqC.2 with hqeq | ⟨_, hg⟩
            · rw [hqeq]; exact hpfg
            · exact hg
          exact ⟨hpB, connF_symm hpB hpfg hqC.2⟩
    · rintro (⟨hbg, hlt⟩ | ⟨hfg, q', hq', hlt⟩)
      · rcases Nat.lt_or_ge (gidx img.width q) k with hl | hg
        · exact Or.inl (Finset.mem_insert_of_mem ((hvis q hqB).mpr (Or.inl ⟨hbg, hl⟩)))
        · have hqk : gidx img.width q = k := by omega
          have hqp : q = p := gidx_injOn hqB hpB (by rw [hqk, hpg])
          rw [hqp, hpbg] at hbg
          exact absurd hbg Bool.false_ne_true
      · rcases Nat.lt_or_ge (gidx img.width q') k with hl | hg
        · exact Or.inl (Finset.mem_insert_of_mem
            ((hvis q hqB).mpr (Or.inr ⟨hfg, q', hq', hl⟩)))
        · have hq'k : gidx img.width q' = k := by omega
          have hq'p : q' = p := gidx_injOn hq'.1 hpB (by rw [hq'k, hpg])
          -- q is in p's component, hence in the trace, hence visited
          have hconn : ConnF img o q p := hq'p ▸ hq'.2
          have hqC : q ∈ CompSet img o p := ⟨hqB, connF_symm hqB hfg hconn⟩
          have hqT : q ∈ (detFill img o st p).2 := (htrC q).mpr hqC
          exact Or.inr ⟨q, hqT, rfl⟩
  · -- boxes
    have hw : 0 < img.width := lt_of_le_of_lt (Nat.zero_le _) (inB_iff.mp hpB).1
    have hpmod : (k % img.width, k / img.width) = p := by
      refine gidx_injOn (unrank_inB hw ?_) hpB ?_
      · rw [← hpg]; exact gidx_lt hpB
      · rw [gidx_unrank hw, hpg]
    show st.boxes ++ _ = _
    rw [boxes_prefix_succ, hpmod, ← hboxes, hentry]
    by_cases hcond : 5 < (detBox img o st p).maxX - (detBox img o st p).minX ∧
        5 < (detBox img o st p).maxY - (detBox img o st p).minY
    · rw [if_pos hcond, if_pos hcond]
      simp
    · rw [if_neg hcond, if_neg hcond]
      simp
  · -- trace membership facts
    intro t ht
    rcases List.mem_append.mp ht with ht' | ht'
    · exact htr1 t ht'
    · exact htrB t ht'
  · -- trace nodup
    rw [List.map_append, List.nodup_append]
    refine ⟨htr2, ?_, ?_⟩
    · exact floodLoop_trace_nodup img.width img.height (fgP img o) _ _ _
        (fun q hq => ⟨(hQ1 q hq).1, (hQ1 q hq).2.2⟩) (by simp)
    · intro a ha hb
      obtain ⟨t, ht, hta⟩ := List.mem_map.mp ha
      obtain ⟨u, hu, hua⟩ := List.mem_map.mp hb
      have havoid := floodLoop_trace_avoid img.width img.height (fgP img o)
        (img.width * img.height + 1) [p] (insert (gidx img.width p) st.vis) st.vis
        (Finset.subset_insert _ _)
        (by
          intro q hq
          rw [List.mem_singleton] at hq
          subst hq
          exact hpv)
      exact havoid u hu (by rw [hua, ← hta]; exact htr3 t ht)
  · -- trace indices are visited
    intro t ht
    show gidx img.width t ∈ (floodLoop _ _ _ _ _ _).1
    rcases List.mem_append.mp ht with ht' | ht'
    · have h1 : gidx img.width t ∈ st.vis := htr3 t ht'
      have h2 : st.vis ⊆ insert (gidx img.width p) st.vis := Finset.subset_insert _ _
      exact floodLoop_fst_mono img.width img.height (fgP img o) _ _ _ (h2 h1)
    · rw [hd2 (gidx img.width t)]
      exact Or.inr ⟨t, ht', rfl⟩
  · -- visited foreground pixels are in the trace
    intro q hqB hqfg hqv
    rw [List.mem_append]
    rcases (hd2 (gidx img.width q)).mp hqv with hv0 | ⟨t, ht, hta⟩
    · rcases Finset.mem_insert.mp hv0 with heq | hv
      · have hqp : q = p := gidx_injOn hqB hpB heq
        rw [hqp]
        exact Or.inr hpT
      · exact Or.inl (htr4 q hqB hqfg hv)
    · have htB := htrB t ht
      have htq : t = q := gidx_injOn htB.1 hqB hta
      rw [htq] at ht
      exact Or.inr ht

/-- Scan-step invariant maintenance, all cases. -/
theorem scanInv_step (img : ImageData) (o : DetectOptions) (k : Nat)
    (st : ScanState) (hw : 0 < img.width) (hk : k < img.width * img.height)
    (hinv : ScanInv img o k st) :
    ScanInv img o (k + 1) (scanStep img o st (k % img.width, k / img.width)) := by
  by_cases hpv : gidx img.width (k % img.width, k / img.width) ∈ st.vis
  · unfold scanStep
    rw [if_pos hpv]
    exact scanInv_step_visited img o k st hw hk hinv hpv
  · by_cases hpbg : isBackground img o (k % img.width, k / img.width) = true
    · unfold scanStep
      rw [if_neg hpv, if_pos hpbg]
      exact scanInv_step_bg img o k st hw hk hinv hpv hpbg
    · unfold scanStep
      rw [if_neg hpv, if_neg hpbg]
      exact scanInv_step_fg img o k st _ (unrank_inB hw hk) (gidx_unrank hw k)
        hinv hpv (Bool.eq_false_iff.mpr hpbg)

theorem scanPrefix_succ (img : ImageData) (o : DetectOptions) (k : Nat) :
    scanPrefix img o (k + 1) =
      scanStep img o (scanPrefix img o k) (k % img.width, k / img.width) := by
  unfold scanPrefix
  rw [List.range_succ, List.map_append, List.foldl_append]
  rfl

theorem detectScan_eq_scanPrefix (img : ImageData) (o : DetectOptions) :
    detectScan img o = scanPrefix img o (img.width * img.height) := by
  unfold detectScan scanPrefix
  rw [rowMajor_eq]

theorem scanInv_zero (img : ImageData) (o : DetectOptions) :
    ScanInv img o 0 ⟨∅, [], []⟩ := by
  refine ⟨?_, by simp, by simp, by simp, by simp, by simp⟩
  intro p hp
  simp [seen]

theorem scanInv_all (img : ImageData) (o : DetectOptions) (hw : 0 < img.width) :
    ∀ k, k ≤ img.width * img.height → ScanInv img o k (scanPrefix img o k) := by
  intro k
  induction k with
  | zero => intro _; exact scanInv_zero img o
  | succ k ih =>
    intro hk
    rw [scanPrefix_succ]
    exact scanInv_step img o k _ hw (by omega) (ih (by omega))

/-- The central detection theorem: the computed boxes coincide with the
spec-side description (one min/max bounding box per 4-connected foreground
component, in first-pixel scan order, filtered at the `> 5` threshold). -/
theorem detect_eq_specBoxes (img : ImageData) (o : DetectOptions) :
    detectObjectsFromImage img o = specBoxes img o := by
  by_cases hw : img.width = 0
  · unfold detectObjectsFromImage detectScan specBoxes
    rw [rowMajor_eq, hw]
    simp
  · have hw' : 0 < img.width := Nat.pos_of_ne_zero hw
    have hfin := (scanInv_all img o hw' (img.width * img.height) (le_refl _)).2.1
    unfold detectObjectsFromImage
    rw [detectScan_eq_scanPrefix, hfin]
    unfold specBoxes
    rw [rowMajor_eq]

/-- Visited flags are never cleared: each scan step only grows the set. -/
theorem scanStep_vis_mono (img : ImageData) (o : DetectOptions)
    (st : ScanState) (p : Nat × Nat) : st.vis ⊆ (scanStep img o st p).vis := by
  unfold scanStep
  split_ifs
  · exact Finset.Subset.refl _
  · exact Finset.subset_insert _ _
  · exact (Finset.subset_insert _ _).trans
      (floodLoop_fst_mono img.width img.height (fgP img o) _ _ _)
  · exact (Finset.subset_insert _ _).trans
      (floodLoop_fst_mono img.width img.height (fgP img o) _ _ _)

/-- The full visit accounting of a run: pairwise distinct visited pixels, all
in-bounds, hence at most `width * height` visits. -/
theorem detect_trace_facts (img : ImageData) (o : DetectOptions) :
    ((detectScan img o).trace.map (gidx img.width)).Nodup ∧
    (∀ t ∈ (detectScan img o).trace, inB img.width img.height t = true) ∧
    (detectScan img o).trace.length ≤ img.width * img.height := by
  by_cases hw : img.width = 0
  · have hnil : detectScan img o = ⟨∅, [], []⟩ := by
      unfold detectScan
      rw [rowMajor_eq, hw]
      simp
    rw [hnil]
    exact ⟨by simp, by simp, by simp⟩
  · have hw' : 0 < img.width := Nat.pos_of_ne_zero hw
    have hinv := scanInv_all img o hw' (img.width * img.height) (le_refl _)
    rw [detectScan_eq_scanPrefix]
    obtain ⟨_, _, htr1, htr2, _, _⟩ := hinv
    refine ⟨htr2, fun t ht => (htr1 t ht).1, ?_⟩
    have hlen : (scanPrefix img o (img.width * img.height)).trace.length =
        ((scanPrefix img o (img.width * img.height)).trace.map (gidx img.width)).length := by
      rw [List.length_map]
    rw [hlen]
    have hsub : ((scanPrefix img o (img.width * img.height)).trace.map
        (gidx img.width)).toFinset ⊆ Finset.range (img.width * img.height) := by
      intro a ha
      rw [List.mem_toFinset] at ha
      obtain ⟨t, ht, rfl⟩ := List.mem_map.mp ha
      rw [Finset.mem_range]
      exact gidx_lt (htr1 t ht).1
    calc ((scanPrefix img o (img.width * img.height)).trace.map (gidx img.width)).length
        = ((scanPrefix img o (img.width * img.height)).trace.map
            (gidx img.width)).toFinset.card := (List.toFinset_card_of_nodup htr2).symm
      _ ≤ (Finset.range (img.width * img.height)).card := Finset.card_le_card hsub
      _ = img.width * img.height := Finset.card_range _

/-- On an image whose every pixel is foreground, the whole grid is one
component and the output is the single full-extent box (given both extents
pass the `> 5` filter). -/
theorem specBoxes_all_fg (img : ImageData) (o : DetectOptions)
    (hfg : ∀ p, fgP img o p = true)
    (hw : 6 < img.width) (hh : 6 < img.height) :
    specBoxes img o = [⟨0, 0, img.width, img.height⟩] := by
  have hw0 : 0 < img.width := by omega
  have hh0 : 0 < img.height := by omega
  have h00B : inB img.width img.height (0, 0) = true := inB_iff.mpr ⟨hw0, hh0⟩
  have hrow : ∀ x, x < img.width → ConnF img o (0, 0) (x, 0) := by
    intro x
    induction x with
    | zero => intro _; exact Reach.refl _
    | succ x ih =>
      intro hx
      refine Reach.step (ih (by omega)) ?_ ?_ (hfg _) (by simp)
      · rw [mem_nbrs]
        exact Or.inr (Or.inr (Or.inl rfl))
      · exact inB_iff.mpr ⟨hx, hh0⟩
  have hcol : ∀ x y, x < img.width → y < img.height →
      ConnF img o (x, 0) (x, y) := by
    intro x y
    induction y with
    | zero => intro _ _; exact Reach.refl _
    | succ y ih =>
      intro hx hy
      refine Reach.step (ih hx (by omega)) ?_ ?_ (hfg _) (by simp)
      · rw [mem_nbrs]
        exact Or.inl rfl
      · exact inB_iff.mpr ⟨hx, hy⟩
  have hreach : ∀ p, inB img.width img.height p = true → ConnF img o (0, 0) p := by
    intro p hp
    obtain ⟨h1, h2⟩ := inB_iff.mp hp
    exact Reach.trans (hrow p.1 h1) (hcol p.1 p.2 h1 h2)
  have hcomp0 : CompSet img o (0, 0) =
      { q | inB img.width img.height q = true } := by
    ext q
    constructor
    · rintro ⟨hb, _⟩; exact hb
    · intro hb; exact ⟨hb, hreach q hb⟩
  have hfstim : Prod.fst '' CompSet img o (0, 0) = { x | x < img.width } := by
    rw [hcomp0]
    ext x
    constructor
    · rintro ⟨q, hq, rfl⟩
      exact (inB_iff.mp hq).1
    · intro hx
      exact ⟨(x, 0), inB_iff.mpr ⟨hx, hh0⟩, rfl⟩
  have hsndim : Prod.snd '' CompSet img o (0, 0) = { y | y < img.height } := by
    rw [hcomp0]
    ext y
    constructor
    · rintro ⟨q, hq, rfl⟩
      exact (inB_iff.mp hq).2
    · intro hy
      exact ⟨(0, y), inB_iff.mpr ⟨hw0, hy⟩, rfl⟩
  have hInfW : sInf { x : ℕ | x < img.width } = 0 :=
    Nat.sInf_eq_zero.mpr (Or.inl hw0)
  have hInfH : sInf { y : ℕ | y < img.height } = 0 :=
    Nat.sInf_eq_zero.mpr (Or.inl hh0)
  have hbddW : BddAbove { x : ℕ | x < img.width } :=
    ⟨img.width, fun x hx => le_of_lt hx⟩
  have hbddH : BddAbove { y : ℕ | y < img.height } :=
    ⟨img.height, fun y hy => le_of_lt hy⟩
  have hSupW : sSup { x : ℕ | x < img.width } = img.width - 1 := by
    apply le_antisymm
    · have h1 : sSup { x : ℕ | x < img.width } ∈ { x : ℕ | x < img.width } :=
        Nat.sSup_mem ⟨0, hw0⟩ hbddW
      have h2 : sSup { x : ℕ | x < img.width } < img.width := h1
      omega
    · exact le_csSup hbddW (by exact (by omega : img.width - 1 < img.width))
  have hSupH : sSup { y : ℕ | y < img.height } = img.height - 1 := by
    apply le_antisymm
    · have h1 : sSup { y : ℕ | y < img.height } ∈ { y : ℕ | y < img.height } :=
        Nat.sSup_mem ⟨0, hh0⟩ hbddH
      have h2 : sSup { y : ℕ | y < img.height } < img.height := h1
      omega
    · exact le_csSup hbddH (by exact (by omega : img.height - 1 < img.height))
  have hentry0 : specEntry img o (0, 0) = some ⟨0, 0, img.width, img.height⟩ := by
    unfold specEntry
    rw [if_pos ⟨h00B, hfg _, by
      intro q hq
      show gidx img.width (0, 0) ≤ gidx img.width q
      unfold gidx
      simp⟩]
    rw [hfstim, hsndim, hInfW, hInfH, hSupW, hSupH]
    rw [if_pos (by omega)]
    have e1 : img.width - 1 - 0 + 1 = img.width := by omega
    have e2 : img.height - 1 - 0 + 1 = img.height := by omega
    rw [e1, e2]
  have hnone : ∀ p, inB img.width img.height p = true → p ≠ (0, 0) →
      specEntry img o p = none := by
    intro p hp hne
    unfold specEntry
    rw [if_neg]
    rintro ⟨hb, _, hfirst⟩
    have h00C : (0, 0) ∈ CompSet img o p :=
      ⟨h00B, connF_symm h00B (hfg _) (hreach p hp)⟩
    have := hfirst (0, 0) h00C
    have hg0 : gidx img.width (0, 0) = 0 := by unfold gidx; simp
    rw [hg0] at this
    have hgp : gidx img.width p = 0 := by omega
    exact hne (gidx_injOn hp h00B (by rw [hgp, hg0]))
  unfold specBoxes
  rw [rowMajor_eq]
  have hN : img.width * img.height = (img.width * img.height - 1) + 1 := by
    have : 0 < img.width * img.height := Nat.mul_pos hw0 hh0
    omega
  rw [hN, List.range_succ_eq_map, List.map_cons, List.filterMap_cons]
  have h0 : ((0 : ℕ) % img.width, (0 : ℕ) / img.width) = ((0 : ℕ), (0 : ℕ)) := by
    simp [Nat.mod_eq_of_lt hw0]
  rw [h0, hentry0]
  have hrest : (((List.range (img.width * img.height - 1)).map Nat.succ).map
      (fun i => (i % img.width, i / img.width))).filterMap (specEntry img o) = [] := by
    rw [List.filterMap_eq_nil_iff]
    intro p hp
    rw [List.map_map, List.mem_map] at hp
    obtain ⟨i, hi, hip⟩ := hp
    simp only [Function.comp_apply] at hip
    rw [List.mem_range] at hi
    have hiN : Nat.succ i < img.width * img.height := by omega
    rw [← hip]
    refine hnone _ (unrank_inB hw0 hiN) ?_
    intro heq
    have hgu := gidx_unrank hw0 (Nat.succ i)
    rw [heq] at hgu
    unfold gidx at hgu
    simp at hgu
  rw [hrest]

/-- C1: for every decodable image and background policy, `detectRegions`
returns one bounding box per 4-connected foreground component, in the order
the components' first pixels are encountered scanning row-major from (0,0);
each box is `(minX, minY, maxX-minX+1, maxY-minY+1)` over the component's
pixels; a component is reported iff `maxX-minX > 5` and `maxY-minY > 5`
(all of which is packaged in `specBoxes`); and a fully-background image
yields the empty sequence. -/
theorem claimC1_detectRegions : ∀ (img : ImageData) (o : DetectOptions),
    detectObjectsFromImage img o = specBoxes img o ∧
    ((∀ x < img.width, ∀ y < img.height, isBackground img o (x, y) = true) →
      detectObjectsFromImage img o = []) := by
  intro img o
  refine ⟨detect_eq_specBoxes img o, ?_⟩
  intro hbg
  rw [detect_eq_specBoxes img o]
  unfold specBoxes
  rw [List.filterMap_eq_nil_iff]
  intro p hp
  have hpB := mem_rowMajor.mp hp
  unfold specEntry
  rw [if_neg]
  rintro ⟨_, hfg, _⟩
  rw [fgP_iff] at hfg
  obtain ⟨h1, h2⟩ := inB_iff.mp hpB
  have h3 : isBackground img o p = true := hbg p.1 h1 p.2 h2
  rw [hfg] at h3
  exact Bool.false_ne_true h3

theorem claimC1_witness :
    (detectObjectsFromImage ⟨1, 1, fun _ _ => ⟨0, 0, 0, 0⟩⟩
        ⟨DetectMode.transparent, ""⟩ =
      specBoxes ⟨1, 1, fun _ _ => ⟨0, 0, 0, 0⟩⟩ ⟨DetectMode.transparent, ""⟩) ∧
    detectObjectsFromImage ⟨1, 1, fun _ _ => ⟨0, 0, 0, 0⟩⟩
        ⟨DetectMode.transparent, ""⟩ = [] := by
  refine ⟨(claimC1_detectRegions _ _).1, (claimC1_detectRegions _ _).2 ?_⟩
  decide

/-- C9: during a `detectRegions` run every pixel is dequeued (and hence,
since the fuelled queue always drains, enqueued) at most once — the visit
trace has pairwise distinct indices — the visited set only ever grows, and
the total number of pixel visits is at most `width * height`. -/
theorem claimC9_visitedOnce : ∀ (img : ImageData) (o : DetectOptions),
    ((detectScan img o).trace.map (gidx img.width)).Nodup ∧
    (detectScan img o).trace.Nodup ∧
    (detectScan img o).trace.length ≤ img.width * img.height ∧
    (∀ (st : ScanState) (p : Nat × Nat), st.vis ⊆ (scanStep img o st p).vis) := by
  intro img o
  obtain ⟨h1, _, h3⟩ := detect_trace_facts img o
  exact ⟨h1, h1.of_map, h3, scanStep_vis_mono img o⟩

/-- C10: with the color detection mode but an unparsable color string,
`isBackground` is constantly false, so the whole image is one foreground
component and detection returns exactly the full-image box for any image
with both dimensions above 6. -/
theorem claimC10_badColor : ∀ (img : ImageData) (s : String),
    validHexFormat s = false →
    (∀ p, isBackground img ⟨DetectMode.color, s⟩ p = false) ∧
    (6 < img.width → 6 < img.height →
      detectObjectsFromImage img ⟨DetectMode.color, s⟩ =
        [⟨0, 0, img.width, img.height⟩]) := by
  intro img s hbad
  have hnone : bgColorRgb ⟨DetectMode.color, s⟩ = none := by
    unfold bgColorRgb
    exact hexToRgb_eq_none s hbad
  have hbg : ∀ p, isBackground img ⟨DetectMode.color, s⟩ p = false := by
    intro p
    show (match bgColorRgb ⟨DetectMode.color, s⟩ with
      | some c => distLtB (img.pix p.1 p.2) c 35
      | none => false) = false
    rw [hnone]
  refine ⟨hbg, ?_⟩
  intro hw hh
  rw [detect_eq_specBoxes]
  exact specBoxes_all_fg img _ (fun p => by simp [fgP, hbg p]) hw hh

theorem claimC10_witness :
    isBackground ⟨7, 7, fun _ _ => ⟨1, 2, 3, 255⟩⟩
        ⟨DetectMode.color, "nope"⟩ (3, 3) = false ∧
    detectObjectsFromImage ⟨7, 7, fun _ _ => ⟨1, 2, 3, 255⟩⟩
        ⟨DetectMode.color, "nope"⟩ = [⟨0, 0, 7, 7⟩] := by
  have h := claimC10_badColor ⟨7, 7, fun _ _ => ⟨1, 2, 3, 255⟩⟩ "nope" (by decide)
  exact ⟨h.1 (3, 3), h.2 (by decide) (by decide)⟩

/-- C5: `isBackground` is a pure function of the pixel and the policy.
Under the transparent policy a pixel is background iff its alpha is below 10;
under the color policy (with a parsed key color) iff the Euclidean RGB
distance to the key color is below the fixed threshold 35, the pixel's alpha
being ignored. -/
theorem claimC5_isBackground : ∀ (img : ImageData) (o : DetectOptions) (p : Nat × Nat),
    (∀ img' : ImageData, img'.pix p.1 p.2 = img.pix p.1 p.2 →
      isBackground img' o p = isBackground img o p) ∧
    (o.mode = DetectMode.transparent →
      (isBackground img o p = true ↔ (img.pix p.1 p.2).a < 10)) ∧
    (∀ c : Rgb, o.mode = DetectMode.color → hexToRgb o.color = some c →
      (isBackground img o p = true ↔
        colorDistance (img.pix p.1 p.2) c < (35 : ℝ)) ∧
      (∀ img' : ImageData,
        (img'.pix p.1 p.2).r = (img.pix p.1 p.2).r →
        (img'.pix p.1 p.2).g = (img.pix p.1 p.2).g →
        (img'.pix p.1 p.2).b = (img.pix p.1 p.2).b →
        isBackground img' o p = isBackground img o p)) := by
  intro img o p
  obtain ⟨mode, color⟩ := o
  refine ⟨?_, ?_, ?_⟩
  · intro img' hp
    cases mode <;> simp only [isBackground, bgColorRgb, hp]
  · intro hmode
    simp only at hmode
    subst hmode
    simp only [isBackground]
    exact decide_eq_true_iff
  · intro c hmode hparse
    simp only at hmode
    subst hmode
    have hbg : bgColorRgb ⟨DetectMode.color, color⟩ = some c := by
      unfold bgColorRgb
      exact hparse
    constructor
    · show (match bgColorRgb ⟨DetectMode.color, color⟩ with
        | some c => distLtB (img.pix p.1 p.2) c 35
        | none => false) = true ↔ _
      rw [hbg]
      rw [distLtB_iff]
      norm_num
    · intro img' hr hg hb
      show (match bgColorRgb ⟨DetectMode.color, color⟩ with
        | some c => distLtB (img'.pix p.1 p.2) c 35
        | none => false) =
        (match bgColorRgb ⟨DetectMode.color, color⟩ with
        | some c => distLtB (img.pix p.1 p.2) c 35
        | none => false)
      rw [hbg]
      simp only [distLtB, distSq, hr, hg, hb]

theorem claimC5_witness :
    (isBackground ⟨1, 1, fun _ _ => ⟨30, 0, 0, 200⟩⟩
        ⟨DetectMode.color, "#000000"⟩ (0, 0) = true ↔
      colorDistance ⟨30, 0, 0, 200⟩ ⟨0, 0, 0⟩ < (35 : ℝ)) ∧
    (isBackground ⟨1, 1, fun _ _ => ⟨30, 0, 0, 200⟩⟩
        ⟨DetectMode.transparent, ""⟩ (0, 0) = true ↔ (200 : Nat) < 10) := by
  constructor
  · exact ((claimC5_isBackground ⟨1, 1, fun _ _ => ⟨30, 0, 0, 200⟩⟩
      ⟨DetectMode.color, "#000000"⟩ (0, 0)).2.2 ⟨0, 0, 0⟩ rfl (by decide)).1
  · exact (claimC5_isBackground ⟨1, 1, fun _ _ => ⟨30, 0, 0, 200⟩⟩
      ⟨DetectMode.transparent, ""⟩ (0, 0)).2.1 rfl

/-- C6: an unparsable (non-`#RRGGBB`/`RRGGBB`) target color string makes
`removeBackground` return the input image unchanged, with no partial
mutation of any pixel. -/
theorem claimC6_badHexUnchanged : ∀ (img : ImageData) (hex : String) (feather : Nat),
    validHexFormat hex = false →
    removeImageBackground img hex feather = img.toF := by
  intro img hex feather hbad
  unfold removeImageBackground
  rw [hexToRgb_eq_none hex hbad]

theorem claimC6_witness :
    removeImageBackground ⟨2, 2, fun _ _ => ⟨10, 20, 30, 255⟩⟩ "notacolor" 25 =
      ImageData.toF ⟨2, 2, fun _ _ => ⟨10, 20, 30, 255⟩⟩ :=
  claimC6_badHexUnchanged ⟨2, 2, fun _ _ => ⟨10, 20, 30, 255⟩⟩ "notacolor" 25
    (by decide)

theorem colorMatchAt_inB {img : ImageData} {c : Rgb} {p : Nat × Nat}
    (h : colorMatchAt img c p = true) : inB img.width img.height p = true := by
  unfold colorMatchAt at h
  by_cases hb : inB img.width img.height p = true
  · exact hb
  · rw [if_neg hb] at h
    exact absurd h Bool.false_ne_true

/-- Master lemma for folding `addToQueue` over a candidate list. -/
theorem foldAdd_spec (img : ImageData) (c : Rgb) (cand : List (Nat × Nat)) :
    ∀ st : Finset Nat × List (Nat × Nat),
      (∀ q ∈ st.2, colorMatchAt img c q = true) →
      (∀ a, a ∈ st.1 ↔ ∃ q ∈ st.2, gidx img.width q = a) →
      ((st.2.map (gidx img.width)).Nodup) →
      (∀ q, q ∈ (cand.foldl (fun s q => addToQueue img c q s) st).2 ↔
        (q ∈ st.2 ∨ (q ∈ cand ∧ colorMatchAt img c q = true))) ∧
      (∀ q ∈ (cand.foldl (fun s q => addToQueue img c q s) st).2,
        colorMatchAt img c q = true) ∧
      (∀ a, a ∈ (cand.foldl (fun s q => addToQueue img c q s) st).1 ↔
        ∃ q ∈ (cand.foldl (fun s q => addToQueue img c q s) st).2,
          gidx img.width q = a) ∧
      (((cand.foldl (fun s q => addToQueue img c q s) st).2.map
        (gidx img.width)).Nodup) := by
  induction cand with
  | nil =>
    intro st hm hc hn
    exact ⟨fun q => by simp, hm, hc, hn⟩
  | cons n cand ih =>
    intro st hm hc hn
    have hstep : ∀ q, q ∈ (addToQueue img c n st).2 ↔
        (q ∈ st.2 ∨ (q = n ∧ colorMatchAt img c n = true)) := by
      intro q
      unfold addToQueue
      by_cases h1 : gidx img.width n ∈ st.1
      · rw [if_pos h1]
        constructor
        · exact Or.inl
        · rintro (hq | ⟨rfl, hmn⟩)
          · exact hq
          · obtain ⟨q', hq', hq'g⟩ := (hc _).mp h1
            have : q' = q :=
              gidx_injOn (colorMatchAt_inB (hm q' hq')) (colorMatchAt_inB hmn) hq'g
            rw [← this]
            exact hq'
      · rw [if_neg h1]
        by_cases h2 : colorMatchAt img c n = true
        · rw [if_pos h2]
          simp only [List.mem_append, List.mem_singleton]
          constructor
          · rintro (hq | rfl)
            · exact Or.inl hq
            · exact Or.inr ⟨rfl, h2⟩
          · rintro (hq | ⟨rfl, _⟩)
            · exact Or.inl hq
            · exact Or.inr rfl
        · rw [if_neg h2]
          constructor
          · exact Or.inl
          · rintro (hq | ⟨rfl, hmn⟩)
            · exact hq
            · exact absurd hmn h2
    have hstm : ∀ q ∈ (addToQueue img c n st).2, colorMatchAt img c q = true := by
      intro q hq
      rcases (hstep q).mp hq with hq' | ⟨rfl, hmn⟩
      · exact hm q hq'
      · exact hmn
    have hstc : ∀ a, a ∈ (addToQueue img c n st).1 ↔
        ∃ q ∈ (addToQueue img c n st).2, gidx img.width q = a := by
      intro a
      unfold addToQueue
      by_cases h1 : gidx img.width n ∈ st.1
      · rw [if_pos h1]
        exact hc a
      · rw [if_neg h1]
        by_cases h2 : colorMatchAt img c n = true
        · rw [if_pos h2]
          simp only [Finset.mem_insert, List.mem_append, List.mem_singleton]
          constructor
          · rintro (rfl | ha)
            · exact ⟨n, Or.inr rfl, rfl⟩
            · obtain ⟨q, hq, hqa⟩ := (hc a).mp ha
              exact ⟨q, Or.inl hq, hqa⟩
          · rintro ⟨q, hq | rfl, hqa⟩
            · exact Or.inr ((hc a).mpr ⟨q, hq, hqa⟩)
            · exact Or.inl hqa.symm
        · rw [if_neg h2]
          exact hc a
    have hstn : (((addToQueue img c n st).2).map (gidx img.width)).Nodup := by
      unfold addToQueue
      by_cases h1 : gidx img.width n ∈ st.1
      · rw [if_pos h1]; exact hn
      · rw [if_neg h1]
        by_cases h2 : colorMatchAt img c n = true
        · rw [if_pos h2]
          rw [List.map_append, List.nodup_append]
          refine ⟨hn, by simp, ?_⟩
          intro a ha hb
          simp only [List.map_cons, List.map_nil, List.mem_singleton] at hb
          obtain ⟨q, hq, hqa⟩ := List.mem_map.mp ha
          exact h1 (by rw [← hb, ← hqa]; exact (hc _).mpr ⟨q, hq, rfl⟩)
        · rw [if_neg h2]; exact hn
    obtain ⟨i1, i2, i3, i4⟩ := ih (addToQueue img c n st) hstm hstc hstn
    refine ⟨?_, i2, i3, i4⟩
    intro q
    rw [List.foldl_cons] at *
    rw [i1 q, hstep q]
    constructor
    · rintro ((hq | ⟨rfl, hmn⟩) | ⟨hcand, hmq⟩)
      · exact Or.inl hq
      · exact Or.inr ⟨List.mem_cons_self _ _, hmn⟩
      · exact Or.inr ⟨List.mem_cons_of_mem _ hcand, hmq⟩
    · rintro (hq | ⟨hcand, hmq⟩)
      · exact Or.inl (Or.inl hq)
      · rcases List.mem_cons.mp hcand with rfl | hcand'
        · exact Or.inl (Or.inr ⟨rfl, hmq⟩)
        · exact Or.inr ⟨hcand', hmq⟩

theorem mem_drop_one_range {m y : Nat} :
    y ∈ (List.range m).drop 1 ↔ 1 ≤ y ∧ y < m := by
  cases m with
  | zero => simp
  | succ m =>
    rw [List.range_succ_eq_map]
    simp only [List.drop_succ_cons, List.drop_zero, List.mem_map, List.mem_range]
    constructor
    · rintro ⟨i, hi, rfl⟩
      omega
    · rintro ⟨h1, h2⟩
      exact ⟨y - 1, by omega, by omega⟩

theorem borderCands_char (img : ImageData) {q : Nat × Nat}
    (hq : inB img.width img.height q = true) :
    q ∈ borderCands img ↔ onBorder img q := by
  obtain ⟨h1, h2⟩ := inB_iff.mp hq
  unfold borderCands onBorder
  rw [List.mem_append, List.mem_flatMap, List.mem_flatMap]
  constructor
  · rintro (⟨x, hx, hq'⟩ | ⟨y, hy, hq'⟩)
    · simp only [List.mem_cons, List.not_mem_nil, or_false, List.mem_singleton] at hq'
      rcases hq' with rfl | rfl
      · exact Or.inr (Or.inr (Or.inl rfl))
      · exact Or.inr (Or.inr (Or.inr rfl))
    · simp only [List.mem_cons, List.not_mem_nil, or_false, List.mem_singleton] at hq'
      rcases hq' with rfl | rfl
      · exact Or.inl rfl
      · exact Or.inr (Or.inl rfl)
  · intro hob
    by_cases hy0 : q.2 = 0
    · refine Or.inl ⟨q.1, List.mem_range.mpr h1, ?_⟩
      simp only [List.mem_cons, List.mem_singleton]
      left
      exact Prod.ext rfl hy0
    · by_cases hyh : q.2 = img.height - 1
      · refine Or.inl ⟨q.1, List.mem_range.mpr h1, ?_⟩
        simp only [List.mem_cons, List.mem_singleton]
        right
        left
        exact Prod.ext rfl hyh
      · rcases hob with hx0 | hxw | hy0' | hyh'
        · refine Or.inr ⟨q.2, mem_drop_one_range.mpr ⟨by omega, by omega⟩, ?_⟩
          simp only [List.mem_cons, List.mem_singleton]
          left
          exact Prod.ext hx0 rfl
        · refine Or.inr ⟨q.2, mem_drop_one_range.mpr ⟨by omega, by omega⟩, ?_⟩
          simp only [List.mem_cons, List.mem_singleton]
          right
          left
          exact Prod.ext hxw rfl
        · exact absurd hy0' hy0
        · exact absurd hyh' hyh

theorem borderSeeds_char (img : ImageData) (c : Rgb) :
    (∀ q, q ∈ (borderSeeds img c).2 ↔
      (inB img.width img.height q = true ∧ onBorder img q ∧
        colorMatchAt img c q = true)) ∧
    (∀ a, a ∈ (borderSeeds img c).1 ↔
      ∃ q ∈ (borderSeeds img c).2, gidx img.width q = a) ∧
    (((borderSeeds img c).2.map (gidx img.width)).Nodup) := by
  obtain ⟨hiff, hmatch, hchar, hnd⟩ := foldAdd_spec img c (borderCands img)
    (∅, []) (by simp) (by simp) (by simp)
  refine ⟨?_, hchar, hnd⟩
  intro q
  show q ∈ (borderSeeds img c).2 ↔ _
  unfold borderSeeds
  rw [hiff q]
  simp only [List.not_mem_nil, false_or]
  constructor
  · rintro ⟨hc, hm⟩
    have hqB := colorMatchAt_inB hm
    exact ⟨hqB, (borderCands_char img hqB).mp hc, hm⟩
  · rintro ⟨hqB, hob, hm⟩
    exact ⟨(borderCands_char img hqB).mpr hob, hm⟩

/-- The pixels Pass 1 dequeues (and hence makes transparent) are exactly the
border-connected matching pixels. -/
theorem pass1_trace_char (img : ImageData) (c : Rgb) :
    ∀ p, p ∈ (pass1Run img c).2 ↔ BorderConn img c p := by
  obtain ⟨hseed, hschar, hsnd⟩ := borderSeeds_char img c
  have hQ : ∀ q ∈ (borderSeeds img c).2, inB img.width img.height q = true ∧
      colorMatchAt img c q = true ∧
      gidx img.width q ∈ (borderSeeds img c).1 := by
    intro q hq
    obtain ⟨hb, _, hm⟩ := (hseed q).mp hq
    exact ⟨hb, hm, (hschar _).mpr ⟨q, hq, rfl⟩⟩
  have hfuel : (Finset.range (img.width * img.height) \ (borderSeeds img c).1).card +
      (borderSeeds img c).2.length ≤
      img.width * img.height + (borderSeeds img c).2.length := by
    have : (Finset.range (img.width * img.height) \ (borderSeeds img c).1).card ≤
        img.width * img.height := by
      calc (Finset.range (img.width * img.height) \ (borderSeeds img c).1).card
          ≤ (Finset.range (img.width * img.height)).card :=
            Finset.card_le_card Finset.sdiff_subset
        _ = img.width * img.height := Finset.card_range _
    omega
  have hchar := floodLoop_trace_char img.width img.height (colorMatchAt img c)
    (img.width * img.height + (borderSeeds img c).2.length)
    (borderSeeds img c).2 (borderSeeds img c).1 hfuel hQ
  intro p
  show p ∈ (floodLoop _ _ _ _ _ _).2 ↔ _
  rw [hchar p]
  constructor
  · rintro ⟨b, hb, hr⟩
    obtain ⟨hbB, hob, hbm⟩ := (hseed b).mp hb
    exact ⟨b, hbB, hob, hbm, Reach.mono (Finset.empty_subset _) hr⟩
  · rintro ⟨b, hbB, hob, hbm, hr⟩
    have hbS : b ∈ (borderSeeds img c).2 := (hseed b).mpr ⟨hbB, hob, hbm⟩
    clear hbB hob hbm
    induction hr with
    | refl => exact ⟨b, hbS, Reach.refl _⟩
    | @step q r hpq hnb hbnd hg hav ih =>
      by_cases hrv : gidx img.width r ∈ (borderSeeds img c).1
      · obtain ⟨q', hq', hq'g⟩ := (hschar _).mp hrv
        have hq'B : inB img.width img.height q' = true := ((hseed q').mp hq').1
        have : q' = r := gidx_injOn hq'B hbnd hq'g
        rw [← this]
        exact ⟨q', hq', Reach.refl _⟩
      · obtain ⟨b', hb', hr'⟩ := ih
        exact ⟨b', hb', Reach.step hr' hnb hbnd hg hrv⟩

theorem reach_down (w h : Nat) (g : Nat × Nat → Bool) (x : Nat) (hx : x < w) :
    ∀ y, y < h → (∀ j, j ≤ y → g (x, j) = true) →
      Reach w h g ∅ (x, 0) (x, y) := by
  intro y
  induction y with
  | zero => intro _ _; exact Reach.refl _
  | succ y ih =>
    intro hy hg
    refine Reach.step (ih (by omega) (fun j hj => hg j (by omega))) ?_ ?_
      (hg _ (le_refl _)) (by simp)
    · rw [mem_nbrs]
      exact Or.inl rfl
    · exact inB_iff.mpr ⟨hx, hy⟩

/-- C2: Pass 1 sets alpha to 0 for exactly the pixels whose color matches the
target (Euclidean distance < 20) and that are 4-connected through matching
pixels to a matching border pixel; all other pixels — including enclosed
matching islands — are untouched.  With feather 0, a solid target-colored
image comes back fully transparent. -/
theorem claimC2_pass1 : ∀ (img : ImageData) (hex : String) (c : Rgb),
    hexToRgb hex = some c →
    (∀ p : Nat × Nat, colorMatchAt img c p = true ↔
      (inB img.width img.height p = true ∧
        colorDistance (img.pix p.1 p.2) c < (20 : ℝ))) ∧
    (∀ x y, x < img.width → y < img.height →
      (BorderConn img c (x, y) →
        (pass1Img img c).pix x y = { img.pix x y with a := 0 }) ∧
      (¬BorderConn img c (x, y) → (pass1Img img c).pix x y = img.pix x y)) ∧
    ((∀ x < img.width, ∀ y < img.height, colorMatchAt img c (x, y) = true) →
      ∀ x < img.width, ∀ y < img.height,
        ((removeImageBackground img hex 0).pix x y).a = 0) := by
  intro img hex c hparse
  refine ⟨?_, ?_, ?_⟩
  · intro p
    unfold colorMatchAt
    by_cases hb : inB img.width img.height p = true
    · rw [if_pos hb, distLtB_iff]
      constructor
      · intro hd
        exact ⟨hb, by exact_mod_cast hd⟩
      · rintro ⟨_, hd⟩
        exact_mod_cast hd
    · rw [if_neg hb]
      constructor
      · intro hd
        exact absurd hd Bool.false_ne_true
      · rintro ⟨hb', _⟩
        exact absurd hb' hb
  · intro x y hx hy
    constructor
    · intro hbc
      unfold pass1Img
      simp only
      rw [if_pos ((pass1_trace_char img c (x, y)).mpr hbc)]
    · intro hbc
      unfold pass1Img
      simp only
      rw [if_neg (fun hmem => hbc ((pass1_trace_char img c (x, y)).mp hmem))]
  · intro hall x hx y hy
    have hbc : BorderConn img c (x, y) := by
      refine ⟨(x, 0), inB_iff.mpr ⟨hx, by omega⟩, Or.inr (Or.inr (Or.inl rfl)),
        hall x hx 0 (by omega), ?_⟩
      exact reach_down img.width img.height (colorMatchAt img c) x hx y hy
        (fun j hj => hall x hx j (by omega))
    have hred : removeImageBackground img hex 0 = (pass1Img img c).toF := by
      unfold removeImageBackground
      rw [hparse]
      rfl
    rw [hred]
    show (((pass1Img img c).pix x y).toR).a = 0
    have hmem := (pass1_trace_char img c (x, y)).mpr hbc
    unfold pass1Img
    simp only
    rw [if_pos hmem]
    simp [Pixel.toR]

theorem claimC2_witness :
    ((pass1Img ⟨1, 1, fun _ _ => ⟨0, 0, 0, 255⟩⟩ ⟨0, 0, 0⟩).pix 0 0 =
      ({ r := 0, g := 0, b := 0, a := 0 } : Pixel)) ∧
    ((removeImageBackground ⟨1, 1, fun _ _ => ⟨0, 0, 0, 255⟩⟩
      "#000000" 0).pix 0 0).a = 0 := by
  have h := claimC2_pass1 ⟨1, 1, fun _ _ => ⟨0, 0, 0, 255⟩⟩ "#000000" ⟨0, 0, 0⟩
    (by decide)
  refine ⟨?_, ?_⟩
  · exact (h.2.1 0 0 (by decide) (by decide)).1
      ⟨(0, 0), by decide, Or.inl rfl, by decide, Reach.refl _⟩
  · exact h.2.2 (by decide) 0 (by decide) 0 (by decide)

theorem distSq_lt_iff_dist {p : Pixel} {c : Rgb} {F : Nat} (hF : 0 < F) :
    distSq p c < (F : ℤ) ^ 2 ↔ colorDistance p c < (F : ℝ) := by
  have h := distLtB_iff p c F
  unfold distLtB at h
  rw [decide_eq_true_iff] at h
  exact h

theorem removeImageBackground_pix_pos (img : ImageData) (hex : String) (c : Rgb)
    (F : Nat) (hparse : hexToRgb hex = some c) (hF : 0 < F) (x y : Nat) :
    (removeImageBackground img hex F).pix x y =
      (if 0 < ((pass1Img img c).pix x y).a ∧
          hasTransparentNbr (pass1Img img c) (x, y) = true ∧
          distSq (img.pix x y) c < (F : ℤ) ^ 2 then
        { r := ((pass1Img img c).pix x y).r
          g := ((pass1Img img c).pix x y).g
          b := ((pass1Img img c).pix x y).b
          a := ((img.pix x y).a : ℝ) *
            (colorDistance (img.pix x y) c / (F : ℝ)) }
      else ((pass1Img img c).pix x y).toR) := by
  unfold removeImageBackground
  rw [hparse]
  show (if F = 0 then (pass1Img img c).toF else _).pix x y = _
  rw [if_neg (by omega : ¬F = 0)]

/-- C3: Pass 2 is skipped entirely at feather 0; for feather F > 0, a pixel
that is opaque after Pass 1 and 4-adjacent to a fully transparent pixel gets
output alpha `originalAlpha * (d / F)` when its original color's Euclidean
distance `d` to the target satisfies `d < F`, and keeps its Pass-1 pixel
unchanged when `d ≥ F`; non-edge pixels always keep their Pass-1 pixel. -/
theorem claimC3_feathering : ∀ (img : ImageData) (hex : String) (c : Rgb)
    (F x y : Nat), hexToRgb hex = some c →
    ((removeImageBackground img hex 0).pix x y = ((pass1Img img c).pix x y).toR) ∧
    (0 < F → 0 < ((pass1Img img c).pix x y).a →
      hasTransparentNbr (pass1Img img c) (x, y) = true →
      ((colorDistance (img.pix x y) c < (F : ℝ) →
        ((removeImageBackground img hex F).pix x y).a =
          ((img.pix x y).a : ℝ) * (colorDistance (img.pix x y) c / (F : ℝ))) ∧
       ((F : ℝ) ≤ colorDistance (img.pix x y) c →
        (removeImageBackground img hex F).pix x y =
          ((pass1Img img c).pix x y).toR))) ∧
    (0 < F → ¬(0 < ((pass1Img img c).pix x y).a ∧
        hasTransparentNbr (pass1Img img c) (x, y) = true) →
      (removeImageBackground img hex F).pix x y =
        ((pass1Img img c).pix x y).toR) := by
  intro img hex c F x y hparse
  refine ⟨?_, ?_, ?_⟩
  · have hred : removeImageBackground img hex 0 = (pass1Img img c).toF := by
      unfold removeImageBackground
      rw [hparse]
      rfl
    rw [hred]
    rfl
  · intro hF hop hedge
    constructor
    · intro hd
      rw [removeImageBackground_pix_pos img hex c F hparse hF x y]
      rw [if_pos ⟨hop, hedge, (distSq_lt_iff_dist hF).mpr hd⟩]
    · intro hd
      rw [removeImageBackground_pix_pos img hex c F hparse hF x y]
      rw [if_neg]
      rintro ⟨_, _, hlt⟩
      exact absurd ((distSq_lt_iff_dist hF).mp hlt) (not_lt.mpr hd)
  · intro hF hne
    rw [removeImageBackground_pix_pos img hex c F hparse hF x y]
    rw [if_neg]
    rintro ⟨h1, h2, _⟩
    exact hne ⟨h1, h2⟩

theorem claimC3_witness :
    colorDistance (imgC3.pix 1 0) ⟨0, 0, 0⟩ = 21 ∧
    ((removeImageBackground imgC3 "#000000" 30).pix 1 0).a =
      ((255 : ℕ) : ℝ) * (colorDistance (imgC3.pix 1 0) ⟨0, 0, 0⟩ / (30 : ℝ)) := by
  have h21 : colorDistance (imgC3.pix 1 0) ⟨0, 0, 0⟩ = 21 := by
    show Real.sqrt _ = 21
    rw [show ((distSq (imgC3.pix 1 0) ⟨0, 0, 0⟩ : ℤ) : ℝ) = (21 : ℝ) ^ 2 by
      norm_num [imgC3, distSq]]
    exact Real.sqrt_sq (by norm_num)
  refine ⟨h21, ?_⟩
  have h := claimC3_feathering imgC3 "#000000" ⟨0, 0, 0⟩ 30 1 0 (by decide)
  exact (h.2.1 (by decide) (by decide) (by decide)).1 (by rw [h21]; norm_num)

theorem innerLoop_spec (env : ExportEnv) (total i : Nat) :
    ∀ (imgs : List ImageFile) (j count : Nat),
      (innerLoop env total i imgs j count).files =
        (imgs.enumFrom j).filterMap (fun jf =>
          if env.ctxOk i jf.1 && env.blobOk i jf.1 then some (pngName jf.2)
          else none) ∧
      (innerLoop env total i imgs j count).events =
        (List.range' (count + 1) imgs.length).map (fun cc => (cc, total)) ∧
      (innerLoop env total i imgs j count).pairs =
        (imgs.enumFrom j).map (fun jf => (i, jf.1)) ∧
      (innerLoop env total i imgs j count).count = count + imgs.length := by
  intro imgs
  induction imgs with
  | nil => intro j count; exact ⟨by simp [innerLoop], by simp [innerLoop],
      by simp [innerLoop], by simp [innerLoop]⟩
  | cons f rest ih =>
    intro j count
    obtain ⟨ih1, ih2, ih3, ih4⟩ := ih (j + 1) (count + 1)
    unfold innerLoop
    by_cases hc : env.ctxOk i j = true
    · rw [if_pos hc]
      refine ⟨?_, ?_, ?_, ?_⟩
      · simp only [ih1, List.enumFrom_cons, List.filterMap_cons, hc, Bool.true_and]
        by_cases hb : env.blobOk i j = true
        · rw [hb]
          simp
        · rw [Bool.eq_false_iff.mpr hb]
          simp
      · simp only [ih2, List.length_cons, List.range'_succ, List.map_cons]
      · simp only [ih3, List.enumFrom_cons, List.map_cons]
      · simp only [ih4, List.length_cons]
        omega
    · rw [if_neg hc]
      refine ⟨?_, ?_, ?_, ?_⟩
      · simp only [ih1, List.enumFrom_cons, List.filterMap_cons,
          Bool.eq_false_iff.mpr hc, Bool.false_and]
        simp
      · simp only [ih2, List.length_cons, List.range'_succ, List.map_cons]
      · simp only [ih3, List.enumFrom_cons, List.map_cons]
      · simp only [ih4, List.length_cons]
        omega

theorem outerLoop_spec (env : ExportEnv) (total : Nat) (images : List ImageFile) :
    ∀ (crops : List CropRectQ) (i count : Nat),
      (outerLoop env total images crops i count).archives =
        (crops.enumFrom i).map (fun ic =>
          images.enum.filterMap (fun jf =>
            if env.ctxOk ic.1 jf.1 && env.blobOk ic.1 jf.1 then
              some (pngName jf.2)
            else none)) ∧
      (outerLoop env total images crops i count).events =
        (List.range' (count + 1) (crops.length * images.length)).map
          (fun cc => (cc, total)) ∧
      (outerLoop env total images crops i count).pairs =
        (crops.enumFrom i).flatMap (fun ic =>
          images.enum.map (fun jf => (ic.1, jf.1))) ∧
      (outerLoop env total images crops i count).count =
        count + crops.length * images.length := by
  intro crops
  induction crops with
  | nil =>
    intro i count
    exact ⟨by simp [outerLoop], by simp [outerLoop], by simp [outerLoop],
      by simp [outerLoop]⟩
  | cons cr rest ih =>
    intro i count
    obtain ⟨in1, in2, in3, in4⟩ := innerLoop_spec env total i images 0 count
    obtain ⟨ih1, ih2, ih3, ih4⟩ := ih (i + 1)
      ((innerLoop env total i images 0 count).count)
    have hmul : (cr :: rest).length * images.length =
        rest.length * images.length + images.length := by
      simp only [List.length_cons]
      ring
    refine ⟨?_, ?_, ?_, ?_⟩
    · show (innerLoop env total i images 0 count).files ::
        (outerLoop env total images rest (i + 1)
          (innerLoop env total i images 0 count).count).archives = _
      rw [ih1, in1, List.enumFrom_cons, List.map_cons, List.enum_eq_enumFrom]
    · show (innerLoop env total i images 0 count).events ++
        (outerLoop env total images rest (i + 1)
          (innerLoop env total i images 0 count).count).events = _
      rw [ih2, in2, in4]
      rw [show count + images.length + 1 = count + 1 + 1 * images.length by omega]
      rw [hmul, ← List.range'_append, List.map_append]
    · show (innerLoop env total i images 0 count).pairs ++
        (outerLoop env total images rest (i + 1)
          (innerLoop env total i images 0 count).count).pairs = _
      rw [ih3, in3, List.enumFrom_cons, List.flatMap_cons, List.enum_eq_enumFrom]
    · show (outerLoop env total images rest (i + 1)
        (innerLoop env total i images 0 count).count).count = _
      rw [ih4, in4, hmul]
      omega

theorem map_enumFrom_fst {α β : Type} (l : List α) :
    ∀ (n : Nat) (g : Nat → β),
      (l.enumFrom n).map (fun p => g p.1) = (List.range' n l.length).map g := by
  induction l with
  | nil => intro n g; simp
  | cons a l ih =>
    intro n g
    rw [List.enumFrom_cons, List.map_cons, List.length_cons, List.range'_succ,
      List.map_cons, ih]

theorem flatMap_enumFrom_fst {α β : Type} (l : List α) :
    ∀ (n : Nat) (g : Nat → List β),
      (l.enumFrom n).flatMap (fun p => g p.1) =
        (List.range' n l.length).flatMap g := by
  induction l with
  | nil => intro n g; simp
  | cons a l ih =>
    intro n g
    rw [List.enumFrom_cons, List.flatMap_cons, List.length_cons,
      List.range'_succ, List.flatMap_cons, ih]

/-- C4: with non-empty crop and image lists, the export processes the
(crop, image) pairs in crop-major order; the progress sink is called exactly
`C*M` times with strictly increasing processed values `1, …, C*M`, ending at
`processed = total = C*M`; a pair with an unobtainable drawing context is
still counted toward progress and merely leaves its file out of the
archive. -/
theorem claimC4_exportCrops : ∀ (crops : List CropRectQ)
    (images : List ImageFile) (env : ExportEnv), crops ≠ [] → images ≠ [] →
    (handleDownload crops images env).events =
      (List.range (crops.length * images.length)).map
        (fun k => (k + 1, crops.length * images.length)) ∧
    (handleDownload crops images env).events.length =
      crops.length * images.length ∧
    (handleDownload crops images env).events.Pairwise (fun a b => a.1 < b.1) ∧
    (handleDownload crops images env).events.getLast? =
      some (crops.length * images.length, crops.length * images.length) ∧
    (handleDownload crops images env).pairs =
      (List.range crops.length).flatMap
        (fun i => (List.range images.length).map (fun j => (i, j))) ∧
    (handleDownload crops images env).archives =
      (List.range crops.length).map (fun i =>
        images.enum.filterMap (fun jf =>
          if env.ctxOk i jf.1 && env.blobOk i jf.1 then some (pngName jf.2)
          else none)) := by
  intro crops images env hc hi
  have hC : crops.length ≠ 0 := fun h => hc (List.length_eq_zero.mp h)
  have hM : images.length ≠ 0 := fun h => hi (List.length_eq_zero.mp h)
  have hred : handleDownload crops images env =
      outerLoop env (images.length * crops.length) images crops 0 0 := by
    unfold handleDownload
    rw [if_neg (by push_neg; exact ⟨hM, hC⟩)]
  obtain ⟨o1, o2, o3, o4⟩ :=
    outerLoop_spec env (images.length * crops.length) images crops 0 0
  have hmain : (handleDownload crops images env).events =
      (List.range (crops.length * images.length)).map
        (fun k => (k + 1, crops.length * images.length)) := by
    rw [hred, o2, List.range'_eq_map_range, List.map_map]
    apply List.map_congr_left
    intro k hk
    simp only [Function.comp_apply]
    exact Prod.ext (by omega) (Nat.mul_comm images.length crops.length)
  refine ⟨hmain, ?_, ?_, ?_, ?_, ?_⟩
  · rw [hmain]
    simp
  · rw [hmain]
    exact (List.pairwise_lt_range _).map _
      (fun a b hab => by simpa using (by omega : a + 1 < b + 1))
  · rw [hmain]
    have hN0 : crops.length * images.length ≠ 0 := Nat.mul_ne_zero hC hM
    have hNs : crops.length * images.length =
        (crops.length * images.length - 1) + 1 := by omega
    rw [hNs, List.range_succ, List.map_append]
    simp only [List.map_cons, List.map_nil]
    rw [List.getLast?_concat]
  · rw [hred, o3]
    rw [flatMap_enumFrom_fst crops 0
      (fun i => images.enum.map (fun jf => (i, jf.1)))]
    rw [← List.range_eq_range']
    congr 1
    funext i
    rw [List.enum_eq_enumFrom, map_enumFrom_fst images 0 (fun j => (i, j)),
      ← List.range_eq_range']
  · rw [hred, o1]
    rw [map_enumFrom_fst crops 0 (fun i =>
      images.enum.filterMap (fun jf =>
        if env.ctxOk i jf.1 && env.blobOk i jf.1 then some (pngName jf.2)
        else none))]
    rw [← List.range_eq_range']

theorem claimC4_witness :
    (handleDownload [⟨0, 0, 1, 1⟩, ⟨0, 0, 2, 2⟩] [⟨"a.png"⟩, ⟨"b.png"⟩]
        ⟨fun i j => !(i == 0 && j == 1), fun _ _ => true⟩).events =
      (List.range 4).map (fun k => (k + 1, 4)) ∧
    (handleDownload [⟨0, 0, 1, 1⟩, ⟨0, 0, 2, 2⟩] [⟨"a.png"⟩, ⟨"b.png"⟩]
        ⟨fun i j => !(i == 0 && j == 1), fun _ _ => true⟩).pairs =
      (List.range 2).flatMap (fun i => (List.range 2).map (fun j => (i, j))) := by
  have h := claimC4_exportCrops [⟨0, 0, 1, 1⟩, ⟨0, 0, 2, 2⟩]
    [⟨"a.png"⟩, ⟨"b.png"⟩] ⟨fun i j => !(i == 0 && j == 1), fun _ _ => true⟩
    (by simp) (by simp)
  exact ⟨h.1, h.2.2.2.2.1⟩

/-- C8: for positive viewports, the projection scales by
`vh / crop.height` when the crop's aspect ratio exceeds the viewport's, else
by `vw / crop.width`; the translations centre the scaled crop; equal aspect
ratios make the two scale formulas agree; degenerate crops or images
short-circuit to the placeholder (no division is ever taken on them). -/
theorem claimC8_coverFit : ∀ (crop : CropRectQ) (imgW imgH vw vh : ℚ),
    0 < vw → 0 < vh →
    ((crop.width ≤ 0 ∨ crop.height ≤ 0 ∨ imgW ≤ 0 ∨ imgH ≤ 0) →
      projectCropToViewport crop imgW imgH vw vh = none) ∧
    (0 < crop.width → 0 < crop.height → 0 < imgW → 0 < imgH →
      projectCropToViewport crop imgW imgH vw vh =
        some (coverScale crop vw vh,
          -(crop.x * coverScale crop vw vh) +
            (vw - crop.width * coverScale crop vw vh) / 2,
          -(crop.y * coverScale crop vw vh) +
            (vh - crop.height * coverScale crop vw vh) / 2) ∧
      (vw / vh < crop.width / crop.height →
        coverScale crop vw vh = vh / crop.height) ∧
      (crop.width / crop.height ≤ vw / vh →
        coverScale crop vw vh = vw / crop.width) ∧
      (crop.width / crop.height = vw / vh →
        coverScale crop vw vh = vw / crop.width ∧
        coverScale crop vw vh = vh / crop.height)) := by
  intro crop imgW imgH vw vh hvw hvh
  constructor
  · intro hdeg
    unfold projectCropToViewport
    rw [if_pos hdeg]
  · intro hcw hch hiw hih
    have hne : ¬(crop.width ≤ 0 ∨ crop.height ≤ 0 ∨ imgW ≤ 0 ∨ imgH ≤ 0) := by
      push_neg
      exact ⟨hcw, hch, hiw, hih⟩
    have hcont : (if 0 < vw ∧ 0 < vh then vw / vh else 1) = vw / vh :=
      if_pos ⟨hvw, hvh⟩
    refine ⟨?_, ?_, ?_, ?_⟩
    · unfold projectCropToViewport
      rw [if_neg hne]
    · intro hlt
      unfold coverScale
      rw [hcont, if_pos hlt]
    · intro hle
      unfold coverScale
      rw [hcont, if_neg (not_lt.mpr hle)]
    · intro heq
      have h2 : coverScale crop vw vh = vw / crop.width := by
        unfold coverScale
        rw [hcont, if_neg (not_lt.mpr (le_of_eq heq))]
      refine ⟨h2, ?_⟩
      rw [h2]
      rw [div_eq_div_iff (ne_of_gt hch) (ne_of_gt hvh)] at heq
      rw [div_eq_div_iff (ne_of_gt hcw) (ne_of_gt hch)]
      linarith [heq]

theorem claimC8_witness :
    projectCropToViewport ⟨10, 20, 50, 100⟩ 200 200 80 40 =
      some (8 / 5, -16, -92) := by
  obtain ⟨heq, h1, h2, h3⟩ :=
    (claimC8_coverFit ⟨10, 20, 50, 100⟩ 200 200 80 40 (by norm_num) (by norm_num)).2
      (by norm_num) (by norm_num) (by norm_num) (by norm_num)
  rw [heq]
  have hs : coverScale ⟨10, 20, 50, 100⟩ 80 40 = 80 / 50 := h2 (by norm_num)
  rw [hs]
  norm_num

lemma axisAdjust_size20 (x w d : ℚ) (iE iW mv : Bool) :
    20 ≤ (axisAdjust x w d iE iW mv).2 := by
  simp only [axisAdjust]
  split_ifs <;> linarith

lemma axisAdjust_pos_le (x w W d : ℚ) (iE iW : Bool)
    (hEW : iW = true → iE = false)
    (hx0 : 0 ≤ x) (hxw : x + w ≤ W) (hw20 : 20 ≤ w) :
    (axisAdjust x w d iE iW false).1 ≤ W - 20 := by
  simp only [axisAdjust]
  cases hiW : iW with
  | true =>
    rw [hEW hiW]
    simp only [if_true, if_false, Bool.false_eq_true, if_neg]
    split_ifs with h
    · linarith
    · linarith [le_of_not_lt h]
  | false =>
    simp only [Bool.false_eq_true, if_false, if_neg]
    split_ifs with h <;> linarith

lemma incW_incE (h : Handle) : incW h = true → incE h = false := by
  cases h <;> simp [incW, incE]

lemma incN_incS (h : Handle) : incN h = true → incS h = false := by
  cases h <;> simp [incN, incS]

/-- C7 counterexample: the claimed invariant fails after edits the UI
allows.  A numeric width entry of −10 is kept (no lower clamp); a drag-move
with a large positive horizontal delta grows the width past the image
(`"move".includes('e')` is true, so move also takes the east-resize branch)
and the move clamp cannot repair `x + width ≤ imageWidth`; and the initial
crop of a 101×101 image has the non-integral size 50.5. -/
theorem claimC7_counterexample :
    ¬ cropInvariant
        (handleInputChange ⟨0, 0, 50, 50⟩ 100 100 CropField.width (-10))
        100 100 ∧
    ¬ cropInvariant
        (handleInteractionMove ⟨0, 0, 50, 50⟩ Handle.move 100 100 60 0)
        100 100 ∧
    ¬ cropInvariant (initialCrop 101 101) 101 101 := by
  refine ⟨?_, ?_, ?_⟩
  · intro hinv
    have hw : (handleInputChange ⟨0, 0, 50, 50⟩ 100 100 CropField.width
        (-10)).width = -10 := by
      norm_num [handleInputChange]
    have hpos := hinv.2.2.2.2.1
    rw [hw] at hpos
    norm_num at hpos
  · intro hinv
    have hc : handleInteractionMove ⟨0, 0, 50, 50⟩ Handle.move 100 100 60 0 =
        ⟨0, 0, 110, 50⟩ := by
      norm_num [handleInteractionMove, axisAdjust, incE, incW, incS, incN,
        isMove]
    have hb := hinv.2.2.1
    rw [hc] at hb
    norm_num at hb
  · rintro ⟨-, -, -, -, -, -, -, -, ⟨n, hn⟩, -⟩
    have hw : (initialCrop 101 101).width = 101 / 2 := by
      norm_num [initialCrop]
    rw [hw] at hn
    have h2 : ((2 * n : ℤ) : ℚ) = ((101 : ℤ) : ℚ) := by
      push_cast
      linarith [hn]
    have h3 : (2 * n : ℤ) = 101 := by
      exact_mod_cast h2
    omega

/-- C7 (amended): what the edit handlers actually guarantee.  A numeric
entry re-establishes the edited axis's upper bound (and only that — no
lower clamp, see the counterexample).  A drag-resize from a crop satisfying
the bounds with sizes ≥ 20 re-establishes all four bounds with sizes ≥ 20.
A drag-move keeps the position non-negative, the sizes ≥ 20 and the
vertical bound, but its width is `max 20 (width + dX)` — the east-resize
leak — so the horizontal bound can fail.  The initial crop is in-bounds and
positive, but not integral. -/
theorem claimC7_cropInvariant :
    (∀ (c : CropRectQ) (W H v : ℚ),
      (handleInputChange c W H CropField.x v).x +
        (handleInputChange c W H CropField.x v).width ≤ W ∧
      (handleInputChange c W H CropField.width v).x +
        (handleInputChange c W H CropField.width v).width ≤ W ∧
      (handleInputChange c W H CropField.y v).y +
        (handleInputChange c W H CropField.y v).height ≤ H ∧
      (handleInputChange c W H CropField.height v).y +
        (handleInputChange c W H CropField.height v).height ≤ H) ∧
    (∀ (c : CropRectQ) (h : Handle) (W H dX dY : ℚ),
      isMove h = false →
      0 ≤ c.x → 0 ≤ c.y → c.x + c.width ≤ W → c.y + c.height ≤ H →
      20 ≤ c.width → 20 ≤ c.height →
      0 ≤ (handleInteractionMove c h W H dX dY).x ∧
      0 ≤ (handleInteractionMove c h W H dX dY).y ∧
      (handleInteractionMove c h W H dX dY).x +
        (handleInteractionMove c h W H dX dY).width ≤ W ∧
      (handleInteractionMove c h W H dX dY).y +
        (handleInteractionMove c h W H dX dY).height ≤ H ∧
      20 ≤ (handleInteractionMove c h W H dX dY).width ∧
      20 ≤ (handleInteractionMove c h W H dX dY).height) ∧
    (∀ (c : CropRectQ) (W H dX dY : ℚ),
      0 ≤ c.y → c.y + c.height ≤ H → 20 ≤ c.height →
      0 ≤ (handleInteractionMove c Handle.move W H dX dY).x ∧
      0 ≤ (handleInteractionMove c Handle.move W H dX dY).y ∧
      (handleInteractionMove c Handle.move W H dX dY).y +
        (handleInteractionMove c Handle.move W H dX dY).height ≤ H ∧
      20 ≤ (handleInteractionMove c Handle.move W H dX dY).width ∧
      20 ≤ (handleInteractionMove c Handle.move W H dX dY).height ∧
      (handleInteractionMove c Handle.move W H dX dY).width =
        (if c.width + dX < 20 then 20 else c.width + dX) ∧
      (handleInteractionMove c Handle.move W H dX dY).height =
        (if c.height < 20 then 20 else c.height)) ∧
    (∀ W H : ℚ, 0 < W → 0 < H →
      0 ≤ (initialCrop W H).x ∧ 0 ≤ (initialCrop W H).y ∧
      (initialCrop W H).x + (initialCrop W H).width ≤ W ∧
      (initialCrop W H).y + (initialCrop W H).height ≤ H ∧
      0 < (initialCrop W H).width ∧ 0 < (initialCrop W H).height) := by
  refine ⟨?_, ?_, ?_, ?_⟩
  · intro c W H v
    refine ⟨?_, ?_, ?_, ?_⟩ <;>
      simp only [handleInputChange] <;> split_ifs with hcond <;>
      simp only [] <;> linarith
  · intro c h W H dX dY hmove hx0 hy0 hxw hyh hw20 hh20
    have hW20 : 20 ≤ W := by linarith
    have hH20 : 20 ≤ H := by linarith
    have hpx := axisAdjust_pos_le c.x c.width W dX (incE h) (incW h)
      (incW_incE h) hx0 hxw hw20
    have hpy := axisAdjust_pos_le c.y c.height H dY (incS h) (incN h)
      (incN_incS h) hy0 hyh hh20
    have hsx := axisAdjust_size20 c.x c.width dX (incE h) (incW h) false
    have hsy := axisAdjust_size20 c.y c.height dY (incS h) (incN h) false
    simp only [handleInteractionMove, hmove, Bool.false_eq_true, if_false,
      if_neg]
    rw [hmove] at *
    have hxm : max 0 (axisAdjust c.x c.width dX (incE h) (incW h) false).1 ≤
        W - 20 := max_le (by linarith) hpx
    have hym : max 0 (axisAdjust c.y c.height dY (incS h) (incN h) false).1 ≤
        H - 20 := max_le (by linarith) hpy
    refine ⟨le_max_left 0 _, le_max_left 0 _, ?_, ?_, ?_, ?_⟩
    · have := min_le_right
        (axisAdjust c.x c.width dX (incE h) (incW h) false).2
        (W - max 0 (axisAdjust c.x c.width dX (incE h) (incW h) false).1)
      linarith
    · have := min_le_right
        (axisAdjust c.y c.height dY (incS h) (incN h) false).2
        (H - max 0 (axisAdjust c.y c.height dY (incS h) (incN h) false).1)
      linarith
    · exact le_min hsx (by linarith)
    · exact le_min hsy (by linarith)
  · intro c W H dX dY hy0 hyh hh20
    have hhH : c.height ≤ H := by linarith
    have hns : ¬(c.height < 20) := not_lt.mpr hh20
    have hres : handleInteractionMove c Handle.move W H dX dY =
        ⟨max 0 (min (c.x + dX)
            (W - (if c.width + dX < 20 then 20 else c.width + dX))),
         max 0 (min (c.y + dY) (H - c.height)),
         (if c.width + dX < 20 then 20 else c.width + dX), c.height⟩ := by
      simp only [handleInteractionMove, axisAdjust, incE, incW, incS, incN,
        isMove, if_true, Bool.false_eq_true, if_false, ite_self, if_neg hns]
    rw [hres]
    dsimp only
    refine ⟨le_max_left 0 _, le_max_left 0 _, ?_, ?_, hh20, rfl,
      (if_neg hns).symm⟩
    · have h1 : max 0 (min (c.y + dY) (H - c.height)) ≤ H - c.height :=
        max_le (by linarith) (min_le_right _ _)
      linarith
    · split_ifs with h
      · exact le_refl 20
      · linarith
  · intro W H hW hH
    have h1 : min W H ≤ W := min_le_left W H
    have h2 : min W H ≤ H := min_le_right W H
    have h3 : 0 < min W H := lt_min hW hH
    simp only [initialCrop]
    refine ⟨by linarith, by linarith, by linarith, by linarith, by linarith,
      by linarith⟩

theorem claimC7_witness :
    (handleInputChange ⟨30, 30, 50, 50⟩ 100 100 CropField.width 200).x +
      (handleInputChange ⟨30, 30, 50, 50⟩ 100 100 CropField.width 200).width
        ≤ 100 ∧
    (handleInteractionMove ⟨30, 30, 50, 50⟩ Handle.e 100 100 70 0).x +
      (handleInteractionMove ⟨30, 30, 50, 50⟩ Handle.e 100 100 70 0).width
        ≤ 100 ∧
    20 ≤ (handleInteractionMove ⟨30, 30, 50, 50⟩ Handle.move 100 100 60
      0).width ∧
    0 < (initialCrop 100 100).width := by
  have hi := claimC7_cropInvariant
  refine ⟨(hi.1 ⟨30, 30, 50, 50⟩ 100 100 200).2.1, ?_, ?_, ?_⟩
  · exact (hi.2.1 ⟨30, 30, 50, 50⟩ Handle.e 100 100 70 0 rfl (by norm_num)
      (by norm_num) (by norm_num) (by norm_num) (by norm_num)
      (by norm_num)).2.2.1
  · exact (hi.2.2.1 ⟨30, 30, 50, 50⟩ 100 100 60 0 (by norm_num)
      (by norm_num) (by norm_num)).2.2.2.1
  · exact (hi.2.2.2 100 100 (by norm_num) (by norm_num)).2.2.2.2.1

end BulkCrop
